import Mathlib

/-!
# Verification of the adaptive block segmentation engine

Shallow embedding of `src/core/document_parser.py` (class `DocumentParser`):
the weighted size metric `_count_chars`, the paragraph packer inside
`split_content`, the oversize cascade (`_split_large_block`,
`_split_by_sentences`, `_force_split_block`) and the merge pass
(`_adjust_block_sizes`), together with proofs of the specified properties.

Python strings are modelled as `List Char` (a Python `str` is a sequence of
Unicode code points, exactly a `List Char` here).
-/

set_option autoImplicit false

/-- A Python string: a finite sequence of Unicode code points. -/
abbrev Str := List Char

/-- Coerce a Lean string literal to the model type. -/
def str (s : String) : Str := s.data

/-- The set of code points removed by Python's `str.strip()` and matched by
`\s` in a Unicode regex: ASCII whitespace, the information separators,
NEL, NBSP and the Unicode space separators. -/
def isSpace (c : Char) : Bool :=
  c.toNat = 0x20 || (0x9 ≤ c.toNat && c.toNat ≤ 0xd) ||
  (0x1c ≤ c.toNat && c.toNat ≤ 0x1f) || c.toNat = 0x85 || c.toNat = 0xa0 ||
  c.toNat = 0x1680 || (0x2000 ≤ c.toNat && c.toNat ≤ 0x200a) ||
  c.toNat = 0x2028 || c.toNat = 0x2029 || c.toNat = 0x202f ||
  c.toNat = 0x205f || c.toNat = 0x3000

/-- `str.strip()`: drop leading and trailing whitespace. -/
def pstrip (s : Str) : Str :=
  ((s.dropWhile isSpace).reverse.dropWhile isSpace).reverse

/-- `DocumentParser._count_chars`: weighted character count.  Each code point
in the CJK Unified Ideographs range U+4E00-U+9FFF weighs 2, every other code
point (whitespace and punctuation included) weighs 1. -/
def count_chars : Str → Nat
  | [] => 0
  | c :: rest => (if '\u4e00' ≤ c ∧ c ≤ '\u9fff' then 2 else 1) + count_chars rest

/-- The non-whitespace code points of a string, in order. -/
def nws (s : Str) : Str := s.filter fun c => !isSpace c

/-- Python `s.split("\n\n")`: split at each non-overlapping occurrence of the
two-character separator, scanning left to right. -/
def splitOnBlank : Str → List Str
  | [] => [[]]
  | '\n' :: '\n' :: rest => [] :: splitOnBlank rest
  | c :: rest =>
    match splitOnBlank rest with
    | [] => [[c]]
    | p :: ps => (c :: p) :: ps

/-- Python `"\n\n".join(parts)`. -/
def joinBlank : List Str → Str
  | [] => []
  | [p] => p
  | p :: ps => p ++ '\n' :: '\n' :: joinBlank ps

/-- `block_type` of a `ContentBlock`: either `frontmatter` or `content`. -/
inductive BlockType where
  | frontmatter
  | content
deriving DecidableEq, Repr

/-- The `ContentBlock` dataclass of `src/interfaces/document_parser.py`.

The final three Boolean fields are proof instrumentation that is absent from
the source dataclass and never influences any control-flow decision of the
embedded functions: `tier3` records that the block was emitted by
`_force_split_block` (Tier-3 forced character slicing), `merged` that it was
produced by a merge inside `_adjust_block_sizes`, and `forced` that some merge
in its history took the forced branch (left size below `min_block_size`). -/
structure ContentBlock where
  content : Str
  block_type : BlockType
  level : Nat
  position : Nat
  tier3 : Bool
  merged : Bool
  forced : Bool
deriving DecidableEq, Repr

/-- The two document-processing fields of `Config` (`src/config.py`):
`max_block_size` and `min_block_size`.  The source class declares them as
plain integers with defaults and attaches no validator to them. -/
structure Cfg where
  min_block_size : Nat
  max_block_size : Nat
deriving DecidableEq, Repr

/-- A block flushed by the paragraph packer inside `split_content`:
`ContentBlock(block_type="content", level=0, position=pos,
content="\n\n".join(current_block).strip())`. -/
def packedBlock (pos : Nat) (cur : List Str) : ContentBlock :=
  { content := pstrip (joinBlank cur), block_type := .content, level := 0,
    position := pos, tier3 := false, merged := false, forced := false }

/-- The paragraph-packing loop of `split_content` (lines 110-147): greedy
accumulation of paragraphs.  `cur` is the non-empty accumulator and `curSize`
its running weighted size (the sum of the paragraphs' sizes, which ignores
the `"\n\n"` joiners inserted at flush time). -/
def packLoop (maxB : Nat) (pos : Nat) (cur : List Str) (curSize : Nat) :
    List Str → List ContentBlock
  | [] => [packedBlock pos cur]
  | p :: ps =>
    if curSize + count_chars p ≤ maxB then
      packLoop maxB pos (cur ++ [p]) (curSize + count_chars p) ps
    else
      packedBlock pos cur :: packLoop maxB (pos + 1) [p] (count_chars p) ps

/-- Entry to the packing loop: an empty accumulator accepts the first
paragraph unconditionally (`if not current_block`); no trailing flush happens
when the paragraph list is empty. -/
def packParas (maxB : Nat) (pos : Nat) : List Str → List ContentBlock
  | [] => []
  | p :: ps => packLoop maxB pos [p] (count_chars p) ps

example : (packParas 10 0 [str "aaaaaa", str "bbbbbb"]).map (·.content) =
    [str "aaaaaa", str "bbbbbb"] := by decide

example : splitOnBlank (str "a\n\n\nb") = [str "a", str "\nb"] := by decide

example : pstrip (str "  a b\n") = str "a b" := by decide

example : count_chars (str "中a") = 3 := by decide

/-- The inner character walk of `_force_split_block`: the number of leading
characters whose accumulated weight stays within `maxB`, starting from the
running total `cnt` (Python breaks at the first character whose inclusion
would push `count` past `max_size`). -/
def prefixLen (maxB : Nat) (cnt : Nat) : Str → Nat
  | [] => 0
  | c :: rest =>
    let w := if '\u4e00' ≤ c ∧ c ≤ '\u9fff' then 2 else 1
    if maxB < cnt + w then 0 else 1 + prefixLen maxB (cnt + w) rest

/-- The `while remaining:` loop of `_force_split_block`, with an explicit
fuel argument so that the definition computes by reduction.  Each iteration
slices off `max(1, length)` characters, emits them (stripped) as a Tier-3
block and strips the remainder; since every slice consumes at least one
character, fuel equal to the length of the input is always sufficient (the
out-of-fuel branch is unreachable then, as proved below). -/
def forceSplitGo (bt : BlockType) (lvl maxB : Nat) :
    Nat → Nat → Str → List ContentBlock
  | 0, _, _ => []
  | _ + 1, _, [] => []
  | fuel + 1, pos, c :: rest =>
    let len := Nat.max 1 (prefixLen maxB 0 (c :: rest))
    { content := pstrip ((c :: rest).take len), block_type := bt, level := lvl,
      position := pos, tier3 := true, merged := false, forced := false } ::
    forceSplitGo bt lvl maxB fuel (pos + 1) (pstrip ((c :: rest).drop len))

/-- `DocumentParser._force_split_block` (Tier-3 forced character slicing),
applied to a block with type `bt`, level `lvl` and position `pos` whose
content is `s`. -/
def force_split_block (bt : BlockType) (lvl maxB pos : Nat) (s : Str) :
    List ContentBlock :=
  forceSplitGo bt lvl maxB s.length pos s

/-- Chinese sentence terminators of `_split_by_sentences`. -/
def isTermCJK (c : Char) : Bool := c = '。' || c = '！' || c = '？'

/-- Latin sentence terminators of `_split_by_sentences` (they end a sentence
only when followed by whitespace or end of text). -/
def isTermLat (c : Char) : Bool := c = '.' || c = '!' || c = '?'

/-- Append a sentence segment: Python strips the slice and keeps it only when
the stripped result is non-empty. -/
def pushSeg (seg : Str) (rest : List Str) : List Str :=
  if pstrip seg = [] then rest else pstrip seg :: rest

/-- The `re.finditer` scan of `_split_by_sentences` over the pattern
`([。！？])|([.!?](?:\s|$))`: a CJK terminator ends a sentence immediately; a
Latin terminator ends one when the next character is whitespace (which the
match consumes) or at end of text.  `acc` holds, reversed, the characters
seen since the previous match end; the trailing remainder is kept as a final
sentence when its stripped form is non-empty. -/
def sentGo : Nat → Str → Str → List Str
  | 0, acc, s => pushSeg (acc.reverse ++ s) []
  | _ + 1, acc, [] => pushSeg acc.reverse []
  | fuel + 1, acc, c :: rest =>
    if isTermCJK c then pushSeg (acc.reverse ++ [c]) (sentGo fuel [] rest)
    else if isTermLat c then
      match rest with
      | [] => pushSeg (acc.reverse ++ [c]) []
      | d :: rest2 =>
        if isSpace d then pushSeg (acc.reverse ++ [c, d]) (sentGo fuel [] rest2)
        else sentGo fuel (c :: acc) rest
    else sentGo fuel (c :: acc) rest

/-- The sentence list computed by `_split_by_sentences` for `s`: the scan
seeded with an empty segment and enough fuel (each step of the scan consumes
at least one character, so `s.length` steps always reach the end; the
out-of-fuel branch, which flushes the remainder, is unreachable then). -/
def sentSplit (s : Str) : List Str := sentGo s.length [] s

/-- A block flushed by the sentence packer: `"".join(current_block).strip()`. -/
def sentenceBlock (bt : BlockType) (lvl pos : Nat) (cur : List Str) :
    ContentBlock :=
  { content := pstrip cur.flatten, block_type := bt, level := lvl, position := pos,
    tier3 := false, merged := false, forced := false }

/-- The sentence-packing loop of `_split_by_sentences`: sentences whose size
exceeds `maxB` flush the accumulator and are routed to Tier-3; other
sentences accumulate greedily under `maxB`. -/
def packSentences (bt : BlockType) (lvl maxB : Nat) :
    Nat → List Str → Nat → List Str → List ContentBlock
  | pos, cur, _, [] => if cur = [] then [] else [sentenceBlock bt lvl pos cur]
  | pos, cur, curSize, s :: rest =>
    if maxB < count_chars s then
      if cur = [] then
        let fs := force_split_block bt lvl maxB pos s
        fs ++ packSentences bt lvl maxB (pos + fs.length) [] 0 rest
      else
        let fs := force_split_block bt lvl maxB (pos + 1) s
        sentenceBlock bt lvl pos cur ::
          (fs ++ packSentences bt lvl maxB (pos + 1 + fs.length) [] 0 rest)
    else if curSize + count_chars s ≤ maxB then
      packSentences bt lvl maxB pos (cur ++ [s]) (curSize + count_chars s) rest
    else
      if cur = [] then packSentences bt lvl maxB pos [s] (count_chars s) rest
      else sentenceBlock bt lvl pos cur ::
        packSentences bt lvl maxB (pos + 1) [s] (count_chars s) rest

/-- `DocumentParser._split_by_sentences` (Tier-2 of the oversize cascade). -/
def split_by_sentences (b : ContentBlock) (maxB : Nat) : List ContentBlock :=
  packSentences b.block_type b.level maxB 0 [] 0 (sentSplit b.content)

/-- A block flushed by the paragraph loop of `_split_large_block`:
`"\n\n".join(current_block).strip()`. -/
def largeBlock (bt : BlockType) (lvl pos : Nat) (cur : List Str) :
    ContentBlock :=
  { content := pstrip (joinBlank cur), block_type := bt, level := lvl,
    position := pos, tier3 := false, merged := false, forced := false }

/-- The paragraph loop of `_split_large_block`: paragraphs whose size exceeds
`maxB` flush the accumulator and are routed individually to the sentence
splitter; other paragraphs accumulate greedily under `maxB`. -/
def packLargeParas (bt : BlockType) (lvl maxB : Nat) :
    Nat → List Str → Nat → List Str → List ContentBlock
  | pos, cur, _, [] => if cur = [] then [] else [largeBlock bt lvl pos cur]
  | pos, cur, curSize, p :: ps =>
    if maxB < count_chars p then
      if cur = [] then
        let ss := split_by_sentences
          { content := p, block_type := bt, level := lvl, position := pos,
            tier3 := false, merged := false, forced := false } maxB
        ss ++ packLargeParas bt lvl maxB (pos + ss.length) [] 0 ps
      else
        let ss := split_by_sentences
          { content := p, block_type := bt, level := lvl, position := pos + 1,
            tier3 := false, merged := false, forced := false } maxB
        largeBlock bt lvl pos cur ::
          (ss ++ packLargeParas bt lvl maxB (pos + 1 + ss.length) [] 0 ps)
    else if curSize + count_chars p ≤ maxB then
      packLargeParas bt lvl maxB pos (cur ++ [p]) (curSize + count_chars p) ps
    else
      if cur = [] then packLargeParas bt lvl maxB pos [p] (count_chars p) ps
      else largeBlock bt lvl pos cur ::
        packLargeParas bt lvl maxB (pos + 1) [p] (count_chars p) ps

/-- `DocumentParser._split_large_block` (Tier-1 of the oversize cascade):
a block within the bound is returned unchanged; otherwise its paragraphs are
repacked when there are at least two of them, else the whole content goes to
the sentence splitter. -/
def split_large_block (b : ContentBlock) (maxB : Nat) : List ContentBlock :=
  if count_chars b.content ≤ maxB then [b]
  else if 1 < ((splitOnBlank b.content).filter fun p => pstrip p ≠ []).length then
    packLargeParas b.block_type b.level maxB 0 [] 0
      ((splitOnBlank b.content).filter fun p => pstrip p ≠ [])
  else split_by_sentences b maxB

/-- A merge step of `_adjust_block_sizes`: the merged block keeps the current
block's type, takes the minimum level, concatenates the contents with a blank
line, and receives `len(merged_blocks)` (the number of blocks emitted so far)
as its pending position. -/
def mergeBlocks (emitted : Nat) (a b : ContentBlock) (forcedStep : Bool) :
    ContentBlock :=
  { content := a.content ++ '\n' :: '\n' :: b.content,
    block_type := a.block_type,
    level := Nat.min a.level b.level,
    position := emitted,
    tier3 := false, merged := true,
    forced := a.forced || b.forced || forcedStep }

/-- One left-to-right merge scan of `_adjust_block_sizes` (lines 183-220),
returning the scanned list and the number of merges performed.  `curSize` is
the running tracked size of the current block: Python updates it with
`combined_size = current_size + next_size`, which ignores the two-character
`"\n\n"` joiner, so after a merge it undercounts the true weighted size of
the merged content.  The tolerance test `combined_size <= max_block_size *
1.2` is modelled exactly as `5 * combined <= 6 * max_block_size`; for every
`max_block_size` below 2^49 the Python float comparison agrees with this
exact rational comparison, because `combined_size` is an integer and the
rounding error of `max_block_size * 1.2` in binary64 is far smaller than the
distance to the nearest integer crossing. -/
def scanMerge (cfg : Cfg) :
    ContentBlock → Nat → Nat → List ContentBlock → List ContentBlock × Nat
  | cur, _, _, [] => ([cur], 0)
  | cur, curSize, emitted, b :: rest =>
    let nextSize := count_chars b.content
    if 5 * (curSize + nextSize) ≤ 6 * cfg.max_block_size then
      let r := scanMerge cfg (mergeBlocks emitted cur b false)
        (curSize + nextSize) emitted rest
      (r.1, r.2 + 1)
    else if curSize < cfg.min_block_size then
      let r := scanMerge cfg (mergeBlocks emitted cur b true)
        (curSize + nextSize) emitted rest
      (r.1, r.2 + 1)
    else
      let r := scanMerge cfg b nextSize (emitted + 1) rest
      (cur :: r.1, r.2)

/-- One full pass of the merge loop: the scan seeded with the first block and
its freshly recounted size. -/
def mergeOnePass (cfg : Cfg) : List ContentBlock → List ContentBlock × Nat
  | [] => ([], 0)
  | a :: rest => scanMerge cfg a (count_chars a.content) 0 rest

/-- The position rewrite at the end of each pass:
`for i, block in enumerate(merged_blocks): block.position = i`. -/
def reindexFrom (i : Nat) : List ContentBlock → List ContentBlock
  | [] => []
  | b :: rest => { b with position := i } :: reindexFrom (i + 1) rest

/-- The `while True:` merge loop of `_adjust_block_sizes`, with an explicit
fuel argument so that the definition computes by reduction.  Fuel equal to
the length of the input list is always sufficient: a pass that merges
strictly shortens the list, and a pass that performs zero merges exits the
loop (so the out-of-fuel branch, which can only be reached at the empty
list, coincides with the loop exit there). -/
def mergeLoopGo (cfg : Cfg) : Nat → List ContentBlock → List ContentBlock
  | 0, bs => reindexFrom 0 (mergeOnePass cfg bs).1
  | fuel + 1, bs =>
    let p := mergeOnePass cfg bs
    let out := reindexFrom 0 p.1
    if p.2 = 0 then out else mergeLoopGo cfg fuel out

/-- The splitting phase of `_adjust_block_sizes` (lines 166-175): every block
whose recounted size exceeds `max_block_size` is replaced in place by its
`_split_large_block` pieces. -/
def split_oversize (cfg : Cfg) (blocks : List ContentBlock) :
    List ContentBlock :=
  blocks.flatMap fun b =>
    if cfg.max_block_size < count_chars b.content then
      split_large_block b cfg.max_block_size
    else [b]

/-- `DocumentParser._adjust_block_sizes`: first split every block whose
recounted size exceeds `max_block_size` (the split results are spliced in
place), then run the merge loop to a fixpoint. -/
def adjust_block_sizes (cfg : Cfg) (blocks : List ContentBlock) :
    List ContentBlock :=
  if blocks = [] then blocks
  else
    mergeLoopGo cfg (split_oversize cfg blocks).length (split_oversize cfg blocks)

/-- The dedicated frontmatter block of `split_content` (lines 96-100). -/
def fmBlock (front : Str) : ContentBlock :=
  { content := front, block_type := .frontmatter, level := 0, position := 0,
    tier3 := false, merged := false, forced := false }

/-- The initial block list of `split_content`: the dedicated frontmatter
block when the frontmatter string is non-empty (lines 94-100). -/
def initBlocks (front : Str) : List ContentBlock :=
  if front ≠ [] then [fmBlock front] else []

/-- `DocumentParser.split_content`, the segmentation entry point: a non-empty
frontmatter becomes a single dedicated block; a non-empty mainmatter is split
on blank lines, packed greedily, and the whole block list (frontmatter
included) is passed through `_adjust_block_sizes`.  The source performs no
validation of the configuration. -/
def split_content (cfg : Cfg) (frontmatter main_content : Str) :
    List ContentBlock :=
  if main_content ≠ [] then
    adjust_block_sizes cfg
      (initBlocks frontmatter ++
        packParas cfg.max_block_size (initBlocks frontmatter).length
          ((splitOnBlank main_content).filter fun p => pstrip p ≠ []))
  else initBlocks frontmatter

example : (split_content ⟨1, 10⟩ [] (str "aaaaaa\n\nbbbbbb")).map
    (fun b => (b.content, b.merged, b.forced, b.tier3)) =
    [(str "aaaaaa\n\nbbbbbb", true, false, false)] := by decide

example : (split_content ⟨1, 10⟩ [] (str "aaaaa\n\nbbbbb")).map
    (fun b => (b.content, b.merged, count_chars b.content)) =
    [(str "aaaaa\n\nbbbbb", false, 12)] := by decide

example : (split_content ⟨1, 10⟩ (str "f") (str "x")).map
    (fun b => (b.content, b.block_type, b.position)) =
    [(str "f\n\nx", .frontmatter, 0)] := by decide

example : (split_content ⟨1, 2⟩ (str "aa\n\nbb") (str "x")).map
    (fun b => (b.content, b.block_type)) =
    [(str "aa", .frontmatter), (str "bb", .frontmatter), (str "x", .content)] := by
  decide

example : (split_content ⟨1, 100⟩ [] (str "# A")).map
    (fun b => (b.content, b.level)) = [(str "# A", 0)] := by decide

example : (force_split_block .content 0 1 0 (str "中")).map
    (fun b => (b.content, count_chars b.content)) = [(str "中", 2)] := by decide

example : sentSplit (str "Hi. Yo!No. 中。x") =
    [str "Hi.", str "Yo!No.", str "中。", str "x"] := by decide

example : (split_content ⟨5, 0⟩ [] (str "ab")).map
    (fun b => (b.content, b.tier3, b.merged, b.forced)) =
    [(str "a\n\nb", false, true, true)] := by decide

/-- View of a block retaining the fields the merge-rule claim speaks about:
content, level and block type. -/
def blockView (b : ContentBlock) : Str × Nat × BlockType :=
  (b.content, b.level, b.block_type)

/-- A fresh content block as the packer creates it, used for concrete
evaluations. -/
def freshBlock (s : Str) : ContentBlock :=
  { content := s, block_type := .content, level := 0, position := 0,
    tier3 := false, merged := false, forced := false }

/-- Modelled from the spec's merge rule as the claim words it: the current
block `A` is merged with its successor `B` exactly when
`weighted_size(A) + weighted_size(B) <= max_size * 1.2` or
`weighted_size(A) < min_size`, where `weighted_size(A)` is the weighted size
of `A`'s full current content; the merged block is
`content = A.content + "\n\n" + B.content`, `level = min(A.level, B.level)`;
otherwise `A` is emitted and the scan advances to `B`. -/
def claimScan (cfg : Cfg) :
    Str × Nat × BlockType → List (Str × Nat × BlockType) →
    List (Str × Nat × BlockType)
  | cur, [] => [cur]
  | (cs, cl, ct), (s2, l2, t2) :: rest =>
    if 5 * (count_chars cs + count_chars s2) ≤ 6 * cfg.max_block_size ∨
        count_chars cs < cfg.min_block_size then
      claimScan cfg (cs ++ '\n' :: '\n' :: s2, Nat.min cl l2, ct) rest
    else (cs, cl, ct) :: claimScan cfg (s2, l2, t2) rest

/-- One merge scan under the claim's reading of the merge rule. -/
def claimPass (cfg : Cfg) :
    List (Str × Nat × BlockType) → List (Str × Nat × BlockType)
  | [] => []
  | a :: rest => claimScan cfg a rest

/-- The amended merge rule: identical to the claim's rule except that the
left-hand size is the tracked running size of the current block - the sum of
the weighted sizes of its constituent blocks, excluding the `"\n\n"` joiners
inserted between them (this equals `weighted_size(A)` whenever `A` is an
original, unmerged block). -/
def amendScan (cfg : Cfg) :
    Str × Nat × BlockType → Nat → List (Str × Nat × BlockType) →
    List (Str × Nat × BlockType)
  | cur, _, [] => [cur]
  | (cs, cl, ct), sz, (s2, l2, t2) :: rest =>
    if 5 * (sz + count_chars s2) ≤ 6 * cfg.max_block_size ∨
        sz < cfg.min_block_size then
      amendScan cfg (cs ++ '\n' :: '\n' :: s2, Nat.min cl l2, ct)
        (sz + count_chars s2) rest
    else (cs, cl, ct) :: amendScan cfg (s2, l2, t2) (count_chars s2) rest

/-- One merge scan under the amended merge rule, seeded with the recounted
size of the first block. -/
def amendPass (cfg : Cfg) :
    List (Str × Nat × BlockType) → List (Str × Nat × BlockType)
  | [] => []
  | a :: rest => amendScan cfg a (count_chars a.1) rest

/-- Modelled from the spec: the greedy paragraph packing rule as the claim
words it, producing the list of paragraph groups.  An empty accumulator
accepts the next paragraph unconditionally; otherwise the paragraph is
appended when the running size plus its weighted size stays within `maxB`,
else the accumulator is flushed and restarted; the final accumulator is
flushed at end of input. -/
def specPackGo (maxB : Nat) : List Str → Nat → List Str → List (List Str)
  | cur, _, [] => if cur = [] then [] else [cur]
  | cur, sz, p :: ps =>
    if cur = [] then specPackGo maxB [p] (count_chars p) ps
    else if sz + count_chars p ≤ maxB then
      specPackGo maxB (cur ++ [p]) (sz + count_chars p) ps
    else cur :: specPackGo maxB [p] (count_chars p) ps

/-- The paragraph groups chosen by the claimed greedy rule for a paragraph
list. -/
def specPack (maxB : Nat) (paras : List Str) : List (List Str) :=
  specPackGo maxB [] 0 paras

/-- Modelled from the spec: the header-line inspection the spec attributes
to the BlockSequencer (absent from `DocumentParser`): the depth of the
Markdown header opening the content, i.e. the length of the leading run of
`#` when it is between 1 and 6 and followed by a space. -/
def hashRun : Str → Nat
  | '#' :: rest => 1 + hashRun rest
  | _ => 0

/-- The header depth of a block content under the claim's wording, if any. -/
def headerDepth (s : Str) : Option Nat :=
  let n := hashRun s
  if 1 ≤ n ∧ n ≤ 6 ∧ (s.drop n).head? = some ' ' then some n else none

example : headerDepth (str "## x") = some 2 := by decide

example : headerDepth (str "#x") = none := by decide

example :
    (mergeOnePass ⟨1, 10⟩
      [freshBlock (str "x"), freshBlock (str "BBBBBBBBBB"),
        freshBlock (str "y")]).1.map (·.content) =
    [str "x\n\nBBBBBBBBBB\n\ny"] := by decide

example :
    claimPass ⟨1, 10⟩
      [blockView (freshBlock (str "x")), blockView (freshBlock (str "BBBBBBBBBB")),
        blockView (freshBlock (str "y"))] =
    [(str "x\n\nBBBBBBBBBB", 0, .content), (str "y", 0, .content)] := by decide

example :
    amendPass ⟨1, 10⟩
      [blockView (freshBlock (str "x")), blockView (freshBlock (str "BBBBBBBBBB")),
        blockView (freshBlock (str "y"))] =
    [(str "x\n\nBBBBBBBBBB\n\ny", 0, .content)] := by decide

example : specPack 10 [str "aaaaaa", str "bbbbbb"] =
    [[str "aaaaaa"], [str "bbbbbb"]] := by decide

theorem count_chars_append (s t : Str) :
    count_chars (s ++ t) = count_chars s + count_chars t := by
  induction s with
  | nil => simp [count_chars]
  | cons c s ih => simp [count_chars, ih]; omega

theorem count_chars_flatten (ps : List Str) :
    count_chars ps.flatten = (ps.map count_chars).sum := by
  induction ps with
  | nil => rfl
  | cons p ps ih => simp [List.flatten, count_chars_append, ih]

theorem length_le_count_chars (s : Str) : s.length ≤ count_chars s := by
  induction s with
  | nil => simp [count_chars]
  | cons c s ih => simp only [count_chars, List.length_cons]; split <;> omega

theorem count_chars_pos (s : Str) (h : s ≠ []) : 0 < count_chars s := by
  have h1 : 0 < s.length := List.length_pos.mpr h
  have h2 := length_le_count_chars s
  omega

theorem count_chars_reverse (s : Str) : count_chars s.reverse = count_chars s := by
  induction s with
  | nil => rfl
  | cons c s ih =>
    rw [List.reverse_cons, count_chars_append, ih]
    simp [count_chars]
    omega

theorem count_chars_dropWhile_le (p : Char → Bool) (s : Str) :
    count_chars (s.dropWhile p) ≤ count_chars s := by
  induction s with
  | nil => simp
  | cons c s ih =>
    rw [List.dropWhile_cons]
    split
    · calc count_chars (s.dropWhile p) ≤ count_chars s := ih
        _ ≤ count_chars (c :: s) := by simp [count_chars]
    · exact le_refl _

theorem count_chars_pstrip_le (s : Str) :
    count_chars (pstrip s) ≤ count_chars s := by
  unfold pstrip
  calc count_chars ((s.dropWhile isSpace).reverse.dropWhile isSpace).reverse
      = count_chars ((s.dropWhile isSpace).reverse.dropWhile isSpace) :=
        count_chars_reverse _
    _ ≤ count_chars (s.dropWhile isSpace).reverse := count_chars_dropWhile_le _ _
    _ = count_chars (s.dropWhile isSpace) := count_chars_reverse _
    _ ≤ count_chars s := count_chars_dropWhile_le _ _

theorem length_pstrip_le (s : Str) : (pstrip s).length ≤ s.length := by
  unfold pstrip
  calc (((s.dropWhile isSpace).reverse.dropWhile isSpace).reverse).length
      = ((s.dropWhile isSpace).reverse.dropWhile isSpace).length := by
        rw [List.length_reverse]
    _ ≤ (s.dropWhile isSpace).reverse.length :=
        (List.dropWhile_suffix isSpace).length_le
    _ = (s.dropWhile isSpace).length := by rw [List.length_reverse]
    _ ≤ s.length := (List.dropWhile_suffix isSpace).length_le

theorem nws_append (s t : Str) : nws (s ++ t) = nws s ++ nws t := by
  simp [nws, List.filter_append]

theorem nws_flatten (ps : List Str) : nws ps.flatten = (ps.map nws).flatten := by
  induction ps with
  | nil => rfl
  | cons p ps ih => simp [List.flatten, nws_append, ih]

theorem nws_dropWhile (s : Str) : nws (s.dropWhile isSpace) = nws s := by
  induction s with
  | nil => rfl
  | cons c s ih =>
    rw [List.dropWhile_cons]
    split
    · next h => rw [ih]; simp [nws, h]
    · next h => rfl

theorem nws_reverse (s : Str) : nws s.reverse = (nws s).reverse := by
  simp [nws, List.filter_reverse]

theorem nws_pstrip (s : Str) : nws (pstrip s) = nws s := by
  unfold pstrip
  rw [nws_reverse, nws_dropWhile, nws_reverse, List.reverse_reverse, nws_dropWhile]

theorem nws_of_pstrip_nil (s : Str) (h : pstrip s = []) : nws s = [] := by
  rw [← nws_pstrip, h]; rfl

theorem pstrip_ne_of_nws (s : Str) (h : nws s ≠ []) : pstrip s ≠ [] :=
  fun hc => h (nws_of_pstrip_nil s hc)

theorem dropWhile_cons_false (p : Char → Bool) (s : Str) (c : Char) (t : Str)
    (h : s.dropWhile p = c :: t) : p c = false := by
  induction s with
  | nil => simp at h
  | cons d s ih =>
    rw [List.dropWhile_cons] at h
    split at h
    · exact ih h
    · next hd =>
      injection h with h1 _
      subst h1
      simpa using hd

theorem pstrip_head_not_space (s : Str) (c : Char) (t : Str)
    (h : pstrip s = c :: t) : isSpace c = false := by
  obtain ⟨w, hw⟩ :=
    List.dropWhile_suffix (l := (s.dropWhile isSpace).reverse) isSpace
  have h2 := congrArg List.reverse hw
  rw [List.reverse_append, List.reverse_reverse] at h2
  have hu : pstrip s ++ w.reverse = s.dropWhile isSpace := h2
  rw [h] at hu
  exact dropWhile_cons_false isSpace s c (t ++ w.reverse) (by simpa using hu.symm)

theorem nws_cons_not_space (c : Char) (t : Str) (h : isSpace c = false) :
    nws (c :: t) ≠ [] := by
  simp [nws, List.filter_cons, h]

theorem nws_ne_of_pstrip (s : Str) (h : pstrip s ≠ []) : nws s ≠ [] := by
  match hp : pstrip s with
  | [] => exact absurd hp h
  | c :: t =>
    have hc := pstrip_head_not_space s c t hp
    rw [← nws_pstrip, hp]
    exact nws_cons_not_space c t hc

theorem splitOnBlank_ne_nil (s : Str) : splitOnBlank s ≠ [] := by
  induction s using splitOnBlank.induct <;> simp_all [splitOnBlank]

theorem joinBlank_cons (p : Str) (ps : List Str) (h : ps ≠ []) :
    joinBlank (p :: ps) = p ++ '\n' :: '\n' :: joinBlank ps := by
  match ps with
  | [] => exact absurd rfl h
  | q :: qs => rfl

theorem joinBlank_splitOnBlank (s : Str) : joinBlank (splitOnBlank s) = s := by
  induction s using splitOnBlank.induct with
  | case1 => rfl
  | case2 rest ih =>
    rw [splitOnBlank, joinBlank_cons _ _ (splitOnBlank_ne_nil rest), ih]
    rfl
  | case3 c rest h heq ih => exact absurd heq (splitOnBlank_ne_nil rest)
  | case4 c rest h p ps heq ih =>
    have hsplit : splitOnBlank (c :: rest) = (c :: p) :: ps := by
      rw [splitOnBlank.eq_def]
      split
      · next heq2 => exact absurd heq2 (by simp)
      · next rest2 heq2 =>
        injection heq2 with h1 h2
        exact (h rest2 h1 h2).elim
      · next c2 rest2 hne heq2 =>
        injection heq2 with h1 h2
        subst h1
        subst h2
        rw [heq]
    rw [hsplit]
    match ps, heq with
    | [], heq =>
      have h2 : joinBlank (splitOnBlank rest) = rest := ih
      rw [heq] at h2
      show c :: p = c :: rest
      simpa using h2
    | q :: qs, heq =>
      rw [joinBlank_cons _ _ (by simp)]
      have h2 : joinBlank (splitOnBlank rest) = rest := ih
      rw [heq, joinBlank_cons _ _ (by simp)] at h2
      simp [← h2]

theorem nws_joinBlank (ps : List Str) :
    nws (joinBlank ps) = (ps.map nws).flatten := by
  induction ps with
  | nil => rfl
  | cons p ps ih =>
    match ps with
    | [] => simp [joinBlank, List.flatten]
    | q :: qs =>
      rw [joinBlank_cons _ _ (by simp), nws_append]
      have hnn : nws ('\n' :: '\n' :: joinBlank (q :: qs)) =
          nws (joinBlank (q :: qs)) := by
        simp [nws, List.filter_cons, isSpace]
      rw [hnn, ih]
      simp [List.flatten]

theorem nws_splitOnBlank (s : Str) :
    ((splitOnBlank s).map nws).flatten = nws s := by
  rw [← nws_joinBlank, joinBlank_splitOnBlank]

theorem count_chars_joinBlank (p : Str) (ps : List Str) :
    count_chars (joinBlank (p :: ps)) =
      ((p :: ps).map count_chars).sum + 2 * ps.length := by
  induction ps generalizing p with
  | nil => simp [joinBlank]
  | cons q qs ih =>
    rw [joinBlank_cons _ _ (by simp), count_chars_append]
    have h2 : count_chars ('\n' :: '\n' :: joinBlank (q :: qs)) =
        2 + count_chars (joinBlank (q :: qs)) := by
      simp [count_chars]
      omega
    rw [h2, ih q]
    simp
    omega

theorem nws_flatten_filter_paras (ps : List Str) :
    (((ps.filter fun p => pstrip p ≠ []).map nws).flatten) =
      (ps.map nws).flatten := by
  induction ps with
  | nil => rfl
  | cons p ps ih =>
    rw [List.filter_cons]
    by_cases hp : pstrip p = []
    · have hd : decide (pstrip p ≠ []) = false := by simp [hp]
      rw [hd]
      have hnp : nws p = [] := nws_of_pstrip_nil p hp
      simp only [Bool.false_eq_true, if_false, List.map_cons, List.flatten_cons,
        hnp, List.nil_append, ih]
    · have hd : decide (pstrip p ≠ []) = true := by simp [hp]
      rw [hd]
      simp only [if_true, List.map_cons, List.flatten_cons, ih]

/-- C10: `weighted_size` (`_count_chars`) is a total function on strings that
sums, per code point, 2 when the code point lies in U+4E00-U+9FFF and 1
otherwise, skipping nothing (every code point, whitespace and punctuation
included, contributes at least 1); in particular the empty string weighs 0,
a CJK ideograph weighs 2, an ASCII letter weighs 1 and their concatenation
weighs 3. -/
theorem C10_size_metric :
    count_chars [] = 0 ∧
    count_chars (str "中") = 2 ∧
    count_chars (str "a") = 1 ∧
    count_chars (str "中a") = 3 ∧
    (∀ s t : Str, count_chars (s ++ t) = count_chars s + count_chars t) ∧
    (∀ c : Char, count_chars [c] =
      if 0x4e00 ≤ c.toNat ∧ c.toNat ≤ 0x9fff then 2 else 1) ∧
    (∀ s : Str, s.length ≤ count_chars s) := by
  refine ⟨rfl, rfl, rfl, rfl, count_chars_append, ?_, length_le_count_chars⟩
  intro c
  show (if '一' ≤ c ∧ c ≤ '鿿' then 2 else 1) + 0 =
    if 0x4e00 ≤ c.toNat ∧ c.toNat ≤ 0x9fff then 2 else 1
  rw [Nat.add_zero]
  congr 1

/-- The non-whitespace characters of the contents of a block list, in order. -/
def nwsBlocks (bs : List ContentBlock) : Str :=
  (bs.map fun b => nws b.content).flatten

theorem nwsBlocks_append (xs ys : List ContentBlock) :
    nwsBlocks (xs ++ ys) = nwsBlocks xs ++ nwsBlocks ys := by
  simp [nwsBlocks]

theorem nwsBlocks_cons (b : ContentBlock) (bs : List ContentBlock) :
    nwsBlocks (b :: bs) = nws b.content ++ nwsBlocks bs := by
  simp [nwsBlocks]

theorem nws_contents (bs : List ContentBlock) :
    nws ((bs.map fun b => b.content).flatten) = nwsBlocks bs := by
  rw [nws_flatten, nwsBlocks, List.map_map]
  rfl

/-- The string has no leading whitespace character. -/
def headNoSpace (s : Str) : Prop := ∀ c t, s = c :: t → isSpace c = false

theorem headNoSpace_pstrip (s : Str) : headNoSpace (pstrip s) :=
  fun c t h => pstrip_head_not_space s c t h

theorem nws_ne_of_headNoSpace (s : Str) (h : headNoSpace s) (hne : s ≠ []) :
    nws s ≠ [] := by
  match s, hne with
  | c :: t, _ => exact nws_cons_not_space c t (h c t rfl)

theorem forceSplitGo_length_le (bt : BlockType) (lvl maxB : Nat) :
    ∀ fuel pos (s : Str),
      (forceSplitGo bt lvl maxB fuel pos s).length ≤ s.length := by
  intro fuel
  induction fuel with
  | zero => intro pos s; simp [forceSplitGo]
  | succ fuel ih =>
    intro pos s
    match s with
    | [] => simp [forceSplitGo]
    | c :: rest =>
      rw [forceSplitGo]
      have hlen : 1 ≤ Nat.max 1 (prefixLen maxB 0 (c :: rest)) := Nat.le_max_left _ _
      have h1 := ih (pos + 1) (pstrip ((c :: rest).drop (Nat.max 1 (prefixLen maxB 0 (c :: rest)))))
      have h2 := length_pstrip_le ((c :: rest).drop (Nat.max 1 (prefixLen maxB 0 (c :: rest))))
      have h3 : ((c :: rest).drop (Nat.max 1 (prefixLen maxB 0 (c :: rest)))).length =
          (c :: rest).length - Nat.max 1 (prefixLen maxB 0 (c :: rest)) := by
        rw [List.length_drop]
      simp only [List.length_cons] at h3 ⊢
      omega

theorem forceSplitGo_nws (bt : BlockType) (lvl maxB : Nat) :
    ∀ fuel pos (s : Str), s.length ≤ fuel →
      nwsBlocks (forceSplitGo bt lvl maxB fuel pos s) = nws s := by
  intro fuel
  induction fuel with
  | zero =>
    intro pos s h
    have : s = [] := List.length_eq_zero.mp (Nat.le_zero.mp h)
    subst this
    rfl
  | succ fuel ih =>
    intro pos s h
    match s with
    | [] => rfl
    | c :: rest =>
      rw [forceSplitGo, nwsBlocks_cons]
      have hlen : 1 ≤ Nat.max 1 (prefixLen maxB 0 (c :: rest)) := Nat.le_max_left _ _
      have hfuel : (pstrip ((c :: rest).drop (Nat.max 1 (prefixLen maxB 0 (c :: rest))))).length ≤ fuel := by
        have h2 := length_pstrip_le ((c :: rest).drop (Nat.max 1 (prefixLen maxB 0 (c :: rest))))
        have h3 : ((c :: rest).drop (Nat.max 1 (prefixLen maxB 0 (c :: rest)))).length =
            (c :: rest).length - Nat.max 1 (prefixLen maxB 0 (c :: rest)) := by
          rw [List.length_drop]
        simp only [List.length_cons] at h3 h ⊢
        omega
      rw [ih _ _ hfuel, nws_pstrip, nws_pstrip, ← nws_append,
        List.take_append_drop]

theorem forceSplitGo_fields (bt : BlockType) (lvl maxB : Nat) :
    ∀ fuel pos (s : Str), ∀ b ∈ forceSplitGo bt lvl maxB fuel pos s,
      b.block_type = bt ∧ b.level = lvl ∧ b.tier3 = true ∧
        b.merged = false ∧ b.forced = false := by
  intro fuel
  induction fuel with
  | zero => intro pos s b hb; simp [forceSplitGo] at hb
  | succ fuel ih =>
    intro pos s b hb
    match s with
    | [] => simp [forceSplitGo] at hb
    | c :: rest =>
      rw [forceSplitGo] at hb
      rcases List.mem_cons.mp hb with h | h
      · subst h; exact ⟨rfl, rfl, rfl, rfl, rfl⟩
      · exact ih _ _ b h

theorem forceSplitGo_content_nws (bt : BlockType) (lvl maxB : Nat) :
    ∀ fuel pos (s : Str), headNoSpace s →
      ∀ b ∈ forceSplitGo bt lvl maxB fuel pos s, nws b.content ≠ [] := by
  intro fuel
  induction fuel with
  | zero => intro pos s _ b hb; simp [forceSplitGo] at hb
  | succ fuel ih =>
    intro pos s hhead b hb
    match s with
    | [] => simp [forceSplitGo] at hb
    | c :: rest =>
      rw [forceSplitGo] at hb
      rcases List.mem_cons.mp hb with h | h
      · subst h
        show nws (pstrip ((c :: rest).take (Nat.max 1 (prefixLen maxB 0 (c :: rest))))) ≠ []
        rw [nws_pstrip]
        obtain ⟨m, hm⟩ : ∃ m, Nat.max 1 (prefixLen maxB 0 (c :: rest)) = m + 1 :=
          ⟨Nat.max 1 (prefixLen maxB 0 (c :: rest)) - 1,
            (Nat.succ_pred_eq_of_pos (Nat.le_max_left 1 _)).symm⟩
        rw [hm, List.take_succ_cons]
        exact nws_cons_not_space c _ (hhead c rest rfl)
      · exact ih _ _ (headNoSpace_pstrip _) b h

/-- The non-whitespace characters of a list of strings, concatenated. -/
def nwsCat (xs : List Str) : Str := (xs.map nws).flatten

theorem nwsCat_cons (x : Str) (xs : List Str) :
    nwsCat (x :: xs) = nws x ++ nwsCat xs := by
  simp [nwsCat]

theorem nwsCat_pushSeg (seg : Str) (rest : List Str) :
    nwsCat (pushSeg seg rest) = nws seg ++ nwsCat rest := by
  unfold pushSeg
  split
  · next h => rw [nws_of_pstrip_nil seg h]; rfl
  · rw [nwsCat_cons, nws_pstrip]


theorem nws_cons_eq (c : Char) (t : Str) : nws (c :: t) = nws [c] ++ nws t := by
  by_cases h : isSpace c <;> simp [nws, List.filter_cons, h]

theorem nws_singleton_space (c : Char) (h : isSpace c = true) : nws [c] = [] := by
  simp [nws, List.filter_cons, h]

theorem sentGo_zero (acc s : Str) :
    sentGo 0 acc s = pushSeg (acc.reverse ++ s) [] := rfl

theorem sentGo_nil (fuel : Nat) (acc : Str) :
    sentGo (fuel + 1) acc [] = pushSeg acc.reverse [] := rfl

theorem sentGo_cjk (fuel : Nat) (acc : Str) (c : Char) (rest : Str)
    (h : isTermCJK c = true) :
    sentGo (fuel + 1) acc (c :: rest) =
      pushSeg (acc.reverse ++ [c]) (sentGo fuel [] rest) := by
  simp [sentGo, h]

theorem sentGo_lat_nil (fuel : Nat) (acc : Str) (c : Char)
    (h1 : isTermCJK c = false) (h2 : isTermLat c = true) :
    sentGo (fuel + 1) acc [c] = pushSeg (acc.reverse ++ [c]) [] := by
  simp [sentGo, h1, h2]

theorem sentGo_lat_space (fuel : Nat) (acc : Str) (c d : Char) (rest2 : Str)
    (h1 : isTermCJK c = false) (h2 : isTermLat c = true)
    (h3 : isSpace d = true) :
    sentGo (fuel + 1) acc (c :: d :: rest2) =
      pushSeg (acc.reverse ++ [c, d]) (sentGo fuel [] rest2) := by
  simp [sentGo, h1, h2, h3]

theorem sentGo_lat_nospace (fuel : Nat) (acc : Str) (c d : Char) (rest2 : Str)
    (h1 : isTermCJK c = false) (h2 : isTermLat c = true)
    (h3 : isSpace d = false) :
    sentGo (fuel + 1) acc (c :: d :: rest2) =
      sentGo fuel (c :: acc) (d :: rest2) := by
  simp [sentGo, h1, h2, h3]

theorem sentGo_other (fuel : Nat) (acc : Str) (c : Char) (rest : Str)
    (h1 : isTermCJK c = false) (h2 : isTermLat c = false) :
    sentGo (fuel + 1) acc (c :: rest) = sentGo fuel (c :: acc) rest := by
  simp [sentGo, h1, h2]

theorem sentGo_nws : ∀ fuel (acc s : Str),
    nwsCat (sentGo fuel acc s) = nws (acc.reverse ++ s) := by
  intro fuel
  induction fuel with
  | zero => intro acc s; rw [sentGo_zero, nwsCat_pushSeg]; simp [nwsCat]
  | succ fuel ih =>
    intro acc s
    match s with
    | [] => rw [sentGo_nil, nwsCat_pushSeg]; simp [nwsCat]
    | c :: rest =>
      by_cases h1 : isTermCJK c = true
      · rw [sentGo_cjk fuel acc c rest h1, nwsCat_pushSeg, ih [] rest]
        rw [nws_append, nws_append, nws_append, nws_cons_eq c rest]
        simp [nws]
      · have h1f : isTermCJK c = false := by simpa using h1
        by_cases h2 : isTermLat c = true
        · match rest with
          | [] =>
            rw [sentGo_lat_nil fuel acc c h1f h2, nwsCat_pushSeg]
            simp [nwsCat]
          | d :: rest2 =>
            by_cases h3 : isSpace d = true
            · rw [sentGo_lat_space fuel acc c d rest2 h1f h2 h3,
                nwsCat_pushSeg, ih [] rest2]
              rw [nws_append, nws_append, nws_append,
                nws_cons_eq c (d :: rest2), nws_cons_eq d rest2,
                nws_singleton_space d h3]
              have hcd : nws [c, d] = nws [c] := by
                rw [nws_cons_eq c [d], nws_singleton_space d h3]
                simp
              rw [hcd]
              simp [nws]
            · have h3f : isSpace d = false := by simpa using h3
              rw [sentGo_lat_nospace fuel acc c d rest2 h1f h2 h3f,
                ih (c :: acc) (d :: rest2)]
              simp [List.reverse_cons, List.append_assoc]
        · have h2f : isTermLat c = false := by simpa using h2
          rw [sentGo_other fuel acc c rest h1f h2f, ih (c :: acc) rest]
          simp [List.reverse_cons, List.append_assoc]

theorem mem_pushSeg (seg : Str) (rest : List Str) (t : Str)
    (h : t ∈ pushSeg seg rest) :
    (t = pstrip seg ∧ pstrip seg ≠ []) ∨ t ∈ rest := by
  unfold pushSeg at h
  split at h
  · exact Or.inr h
  · next hne =>
    rcases List.mem_cons.mp h with h | h
    · exact Or.inl ⟨h, hne⟩
    · exact Or.inr h

theorem sentGo_elems : ∀ fuel (acc s : Str), ∀ t ∈ sentGo fuel acc s,
    headNoSpace t ∧ t ≠ [] := by
  intro fuel
  induction fuel with
  | zero =>
    intro acc s t ht
    rw [sentGo_zero] at ht
    rcases mem_pushSeg _ _ _ ht with ⟨h1, h2⟩ | h
    · subst h1; exact ⟨headNoSpace_pstrip _, h2⟩
    · simp at h
  | succ fuel ih =>
    intro acc s t ht
    match s with
    | [] =>
      rw [sentGo_nil] at ht
      rcases mem_pushSeg _ _ _ ht with ⟨h1, h2⟩ | h
      · subst h1; exact ⟨headNoSpace_pstrip _, h2⟩
      · simp at h
    | c :: rest =>
      by_cases h1 : isTermCJK c = true
      · rw [sentGo_cjk fuel acc c rest h1] at ht
        rcases mem_pushSeg _ _ _ ht with ⟨hh1, hh2⟩ | h
        · subst hh1; exact ⟨headNoSpace_pstrip _, hh2⟩
        · exact ih [] rest t h
      · have h1f : isTermCJK c = false := by simpa using h1
        by_cases h2 : isTermLat c = true
        · match rest with
          | [] =>
            rw [sentGo_lat_nil fuel acc c h1f h2] at ht
            rcases mem_pushSeg _ _ _ ht with ⟨hh1, hh2⟩ | h
            · subst hh1; exact ⟨headNoSpace_pstrip _, hh2⟩
            · simp at h
          | d :: rest2 =>
            by_cases h3 : isSpace d = true
            · rw [sentGo_lat_space fuel acc c d rest2 h1f h2 h3] at ht
              rcases mem_pushSeg _ _ _ ht with ⟨hh1, hh2⟩ | h
              · subst hh1; exact ⟨headNoSpace_pstrip _, hh2⟩
              · exact ih [] rest2 t h
            · have h3f : isSpace d = false := by simpa using h3
              rw [sentGo_lat_nospace fuel acc c d rest2 h1f h2 h3f] at ht
              exact ih (c :: acc) (d :: rest2) t ht
        · have h2f : isTermLat c = false := by simpa using h2
          rw [sentGo_other fuel acc c rest h1f h2f] at ht
          exact ih (c :: acc) rest t ht

theorem nwsCat_append (xs ys : List Str) :
    nwsCat (xs ++ ys) = nwsCat xs ++ nwsCat ys := by
  simp [nwsCat]

theorem nws_pstrip_flatten (cur : List Str) :
    nws (pstrip cur.flatten) = nwsCat cur := by
  rw [nws_pstrip, nws_flatten]; rfl

theorem force_split_block_nws (bt : BlockType) (lvl maxB pos : Nat) (s : Str) :
    nwsBlocks (force_split_block bt lvl maxB pos s) = nws s :=
  forceSplitGo_nws bt lvl maxB s.length pos s (le_refl _)

theorem packSentences_nil (bt : BlockType) (lvl maxB pos : Nat)
    (cur : List Str) (curSize : Nat) :
    packSentences bt lvl maxB pos cur curSize [] =
      if cur = [] then [] else [sentenceBlock bt lvl pos cur] := rfl

theorem packSentences_cons (bt : BlockType) (lvl maxB pos : Nat)
    (cur : List Str) (curSize : Nat) (s : Str) (rest : List Str) :
    packSentences bt lvl maxB pos cur curSize (s :: rest) =
      if maxB < count_chars s then
        (if cur = [] then
          force_split_block bt lvl maxB pos s ++
            packSentences bt lvl maxB
              (pos + (force_split_block bt lvl maxB pos s).length) [] 0 rest
        else
          sentenceBlock bt lvl pos cur ::
            (force_split_block bt lvl maxB (pos + 1) s ++
              packSentences bt lvl maxB
                (pos + 1 + (force_split_block bt lvl maxB (pos + 1) s).length)
                [] 0 rest))
      else if curSize + count_chars s ≤ maxB then
        packSentences bt lvl maxB pos (cur ++ [s]) (curSize + count_chars s) rest
      else if cur = [] then
        packSentences bt lvl maxB pos [s] (count_chars s) rest
      else
        sentenceBlock bt lvl pos cur ::
          packSentences bt lvl maxB (pos + 1) [s] (count_chars s) rest := rfl

theorem packSentences_nwsCat (bt : BlockType) (lvl maxB : Nat) :
    ∀ (sents : List Str) (pos : Nat) (cur : List Str) (curSize : Nat),
      nwsBlocks (packSentences bt lvl maxB pos cur curSize sents) =
        nwsCat cur ++ nwsCat sents := by
  intro sents
  induction sents with
  | nil =>
    intro pos cur curSize
    rw [packSentences_nil]
    split
    · next h => subst h; simp [nwsBlocks, nwsCat]
    · simp [nwsBlocks, nwsCat, sentenceBlock, nws_pstrip, nws_flatten]
  | cons s rest ih =>
    intro pos cur curSize
    rw [packSentences_cons]
    by_cases h1 : maxB < count_chars s
    · rw [if_pos h1]
      by_cases h2 : cur = []
      · rw [if_pos h2]
        subst h2
        rw [nwsBlocks_append, force_split_block_nws, ih]
        simp [nwsCat]
      · rw [if_neg h2]
        rw [nwsBlocks_cons, nwsBlocks_append, force_split_block_nws, ih]
        show nws (pstrip cur.flatten) ++ _ = _
        rw [nws_pstrip_flatten]
        simp [nwsCat]
    · rw [if_neg h1]
      by_cases h2 : curSize + count_chars s ≤ maxB
      · rw [if_pos h2, ih]
        rw [nwsCat_append]
        simp [nwsCat]
      · rw [if_neg h2]
        by_cases h3 : cur = []
        · rw [if_pos h3, ih]
          subst h3
          simp [nwsCat]
        · rw [if_neg h3, nwsBlocks_cons, ih]
          show nws (pstrip cur.flatten) ++ _ = _
          rw [nws_pstrip_flatten]
          simp [nwsCat]

theorem packSentences_spec (bt : BlockType) (lvl maxB : Nat) :
    ∀ (sents : List Str) (pos : Nat) (cur : List Str) (curSize : Nat),
      (∀ t ∈ cur, headNoSpace t ∧ t ≠ []) →
      (∀ t ∈ sents, headNoSpace t ∧ t ≠ []) →
      (cur.map count_chars).sum = curSize →
      curSize ≤ maxB →
      ∀ b ∈ packSentences bt lvl maxB pos cur curSize sents,
        b.block_type = bt ∧ b.level = lvl ∧ b.merged = false ∧
        b.forced = false ∧ nws b.content ≠ [] ∧
        (b.tier3 = false → count_chars b.content ≤ maxB) := by
  have flush : ∀ (pos : Nat) (cur : List Str),
      (∀ t ∈ cur, headNoSpace t ∧ t ≠ []) → cur ≠ [] →
      (cur.map count_chars).sum ≤ maxB →
      nws (sentenceBlock bt lvl pos cur).content ≠ [] ∧
        count_chars (sentenceBlock bt lvl pos cur).content ≤ maxB := by
    intro pos cur hcur hne hsz
    constructor
    · show nws (pstrip cur.flatten) ≠ []
      rw [nws_pstrip_flatten]
      match cur, hne with
      | t :: ts, _ =>
        rw [nwsCat_cons]
        have ht := hcur t (List.mem_cons_self t ts)
        have : nws t ≠ [] := nws_ne_of_headNoSpace t ht.1 ht.2
        intro hcontra
        exact this (List.append_eq_nil.mp hcontra).1
    · show count_chars (pstrip cur.flatten) ≤ maxB
      calc count_chars (pstrip cur.flatten) ≤ count_chars cur.flatten :=
            count_chars_pstrip_le _
        _ = (cur.map count_chars).sum := count_chars_flatten cur
        _ ≤ maxB := hsz
  intro sents
  induction sents with
  | nil =>
    intro pos cur curSize hcur _ hsum hle b hb
    rw [packSentences_nil] at hb
    split at hb
    · simp at hb
    · next hne =>
      rcases List.mem_singleton.mp hb with rfl
      have hf := flush pos cur hcur hne (hsum ▸ hle)
      exact ⟨rfl, rfl, rfl, rfl, hf.1, fun _ => hf.2⟩
  | cons s rest ih =>
    intro pos cur curSize hcur hsents hsum hle b hb
    have hs := hsents s (List.mem_cons_self s rest)
    have hrest : ∀ t ∈ rest, headNoSpace t ∧ t ≠ [] :=
      fun t ht => hsents t (List.mem_cons_of_mem s ht)
    rw [packSentences_cons] at hb
    by_cases h1 : maxB < count_chars s
    · rw [if_pos h1] at hb
      by_cases h2 : cur = []
      · rw [if_pos h2] at hb
        rcases List.mem_append.mp hb with h | h
        · have hf := forceSplitGo_fields bt lvl maxB s.length pos s b h
          have hn := forceSplitGo_content_nws bt lvl maxB s.length pos s hs.1 b h
          refine ⟨hf.1, hf.2.1, hf.2.2.2.1, hf.2.2.2.2, hn, ?_⟩
          intro ht3
          rw [hf.2.2.1] at ht3
          exact absurd ht3 (by simp)
        · exact ih _ [] 0 (by simp) hrest rfl (Nat.zero_le _) b h
      · rw [if_neg h2] at hb
        rcases List.mem_cons.mp hb with rfl | h
        · have hf := flush pos cur hcur h2 (hsum ▸ hle)
          exact ⟨rfl, rfl, rfl, rfl, hf.1, fun _ => hf.2⟩
        · rcases List.mem_append.mp h with h | h
          · have hf := forceSplitGo_fields bt lvl maxB s.length (pos + 1) s b h
            have hn := forceSplitGo_content_nws bt lvl maxB s.length (pos + 1) s hs.1 b h
            refine ⟨hf.1, hf.2.1, hf.2.2.2.1, hf.2.2.2.2, hn, ?_⟩
            intro ht3
            rw [hf.2.2.1] at ht3
            exact absurd ht3 (by simp)
          · exact ih _ [] 0 (by simp) hrest rfl (Nat.zero_le _) b h
    · rw [if_neg h1] at hb
      have hsle : count_chars s ≤ maxB := Nat.le_of_not_lt h1
      by_cases h2 : curSize + count_chars s ≤ maxB
      · rw [if_pos h2] at hb
        refine ih _ (cur ++ [s]) (curSize + count_chars s) ?_ hrest ?_ h2 b hb
        · intro t ht
          rcases List.mem_append.mp ht with h | h
          · exact hcur t h
          · rcases List.mem_singleton.mp h with rfl
            exact hs
        · rw [List.map_append, List.sum_append, hsum]
          simp
      · rw [if_neg h2] at hb
        by_cases h3 : cur = []
        · rw [if_pos h3] at hb
          exact ih _ [s] (count_chars s)
            (fun t ht => by rcases List.mem_singleton.mp ht with rfl; exact hs)
            hrest (by simp) hsle b hb
        · rw [if_neg h3] at hb
          rcases List.mem_cons.mp hb with rfl | h
          · have hf := flush pos cur hcur h3 (hsum ▸ hle)
            exact ⟨rfl, rfl, rfl, rfl, hf.1, fun _ => hf.2⟩
          · exact ih _ [s] (count_chars s)
              (fun t ht => by rcases List.mem_singleton.mp ht with rfl; exact hs)
              hrest (by simp) hsle b h

theorem split_by_sentences_nws (b : ContentBlock) (maxB : Nat) :
    nwsBlocks (split_by_sentences b maxB) = nws b.content := by
  unfold split_by_sentences
  rw [packSentences_nwsCat]
  unfold sentSplit
  rw [sentGo_nws b.content.length [] b.content]
  simp [nwsCat]

theorem split_by_sentences_spec (b : ContentBlock) (maxB : Nat) :
    ∀ b2 ∈ split_by_sentences b maxB,
      b2.block_type = b.block_type ∧ b2.level = b.level ∧ b2.merged = false ∧
      b2.forced = false ∧ nws b2.content ≠ [] ∧
      (b2.tier3 = false → count_chars b2.content ≤ maxB) :=
  packSentences_spec b.block_type b.level maxB (sentSplit b.content) 0 [] 0
    (by simp) (sentGo_elems b.content.length [] b.content) rfl (Nat.zero_le _)

theorem length_le_sum_counts (l : List Str) (h : ∀ x ∈ l, x ≠ []) :
    l.length ≤ (l.map count_chars).sum := by
  induction l with
  | nil => simp
  | cons x l ih =>
    have hx : 0 < count_chars x :=
      count_chars_pos x (h x (List.mem_cons_self x l))
    have := ih fun y hy => h y (List.mem_cons_of_mem x hy)
    simp only [List.length_cons, List.map_cons, List.sum_cons]
    omega

theorem nws_ne_nil_ne (s : Str) (h : nws s ≠ []) : s ≠ [] := by
  intro hc
  subst hc
  exact h rfl

theorem packLargeParas_nil (bt : BlockType) (lvl maxB pos : Nat)
    (cur : List Str) (curSize : Nat) :
    packLargeParas bt lvl maxB pos cur curSize [] =
      if cur = [] then [] else [largeBlock bt lvl pos cur] := rfl

theorem packLargeParas_cons (bt : BlockType) (lvl maxB pos : Nat)
    (cur : List Str) (curSize : Nat) (p : Str) (ps : List Str) :
    packLargeParas bt lvl maxB pos cur curSize (p :: ps) =
      if maxB < count_chars p then
        (if cur = [] then
          split_by_sentences
            { content := p, block_type := bt, level := lvl, position := pos,
              tier3 := false, merged := false, forced := false } maxB ++
            packLargeParas bt lvl maxB
              (pos + (split_by_sentences
                { content := p, block_type := bt, level := lvl, position := pos,
                  tier3 := false, merged := false, forced := false } maxB).length)
              [] 0 ps
        else
          largeBlock bt lvl pos cur ::
            (split_by_sentences
              { content := p, block_type := bt, level := lvl,
                position := pos + 1, tier3 := false, merged := false,
                forced := false } maxB ++
              packLargeParas bt lvl maxB
                (pos + 1 + (split_by_sentences
                  { content := p, block_type := bt, level := lvl,
                    position := pos + 1, tier3 := false, merged := false,
                    forced := false } maxB).length) [] 0 ps))
      else if curSize + count_chars p ≤ maxB then
        packLargeParas bt lvl maxB pos (cur ++ [p]) (curSize + count_chars p) ps
      else if cur = [] then
        packLargeParas bt lvl maxB pos [p] (count_chars p) ps
      else
        largeBlock bt lvl pos cur ::
          packLargeParas bt lvl maxB (pos + 1) [p] (count_chars p) ps := rfl

theorem nws_largeBlock (bt : BlockType) (lvl pos : Nat) (cur : List Str) :
    nws (largeBlock bt lvl pos cur).content = nwsCat cur := by
  show nws (pstrip (joinBlank cur)) = nwsCat cur
  rw [nws_pstrip, nws_joinBlank]; rfl

theorem packLargeParas_nwsCat (bt : BlockType) (lvl maxB : Nat) :
    ∀ (ps : List Str) (pos : Nat) (cur : List Str) (curSize : Nat),
      nwsBlocks (packLargeParas bt lvl maxB pos cur curSize ps) =
        nwsCat cur ++ nwsCat ps := by
  intro ps
  induction ps with
  | nil =>
    intro pos cur curSize
    rw [packLargeParas_nil]
    split
    · next h => subst h; simp [nwsBlocks, nwsCat]
    · rw [show nwsBlocks [largeBlock bt lvl pos cur] =
        nws (largeBlock bt lvl pos cur).content from by simp [nwsBlocks],
        nws_largeBlock]
      simp [nwsCat]
  | cons p ps ih =>
    intro pos cur curSize
    rw [packLargeParas_cons]
    by_cases h1 : maxB < count_chars p
    · rw [if_pos h1]
      by_cases h2 : cur = []
      · rw [if_pos h2]
        subst h2
        rw [nwsBlocks_append, split_by_sentences_nws, ih]
        simp [nwsCat]
      · rw [if_neg h2]
        rw [nwsBlocks_cons, nwsBlocks_append, split_by_sentences_nws,
          nws_largeBlock, ih]
        simp [nwsCat]
    · rw [if_neg h1]
      by_cases h2 : curSize + count_chars p ≤ maxB
      · rw [if_pos h2, ih, nwsCat_append]
        simp [nwsCat]
      · rw [if_neg h2]
        by_cases h3 : cur = []
        · rw [if_pos h3, ih]
          subst h3
          simp [nwsCat]
        · rw [if_neg h3, nwsBlocks_cons, nws_largeBlock, ih]
          simp [nwsCat]

theorem packLargeParas_spec (bt : BlockType) (lvl maxB : Nat) :
    ∀ (ps : List Str) (pos : Nat) (cur : List Str) (curSize : Nat),
      (∀ p ∈ cur, nws p ≠ []) →
      (∀ p ∈ ps, nws p ≠ []) →
      (cur.map count_chars).sum = curSize →
      curSize ≤ maxB →
      ∀ b ∈ packLargeParas bt lvl maxB pos cur curSize ps,
        b.block_type = bt ∧ b.level = lvl ∧ b.merged = false ∧
        b.forced = false ∧ nws b.content ≠ [] ∧
        (b.tier3 = false →
          count_chars b.content ≤ Nat.max maxB (3 * maxB - 2)) := by
  have flush : ∀ (pos : Nat) (cur : List Str),
      (∀ p ∈ cur, nws p ≠ []) → cur ≠ [] →
      (cur.map count_chars).sum ≤ maxB →
      nws (largeBlock bt lvl pos cur).content ≠ [] ∧
        count_chars (largeBlock bt lvl pos cur).content ≤
          Nat.max maxB (3 * maxB - 2) := by
    intro pos cur hcur hne hsz
    constructor
    · rw [nws_largeBlock]
      match cur, hne with
      | t :: ts, _ =>
        rw [nwsCat_cons]
        have ht := hcur t (List.mem_cons_self t ts)
        intro hcontra
        exact ht (List.append_eq_nil.mp hcontra).1
    · show count_chars (pstrip (joinBlank cur)) ≤ Nat.max maxB (3 * maxB - 2)
      match cur, hne, hcur, hsz with
      | t :: ts, _, hcur, hsz =>
        have hlen : (t :: ts).length ≤ ((t :: ts).map count_chars).sum :=
          length_le_sum_counts _ fun x hx => nws_ne_nil_ne x (hcur x hx)
        have hjb := count_chars_joinBlank t ts
        have hp := count_chars_pstrip_le (joinBlank (t :: ts))
        have hb : count_chars (pstrip (joinBlank (t :: ts))) ≤ 3 * maxB - 2 := by
          simp only [List.length_cons] at hlen
          omega
        exact le_trans hb (Nat.le_max_right maxB _)
  intro ps
  induction ps with
  | nil =>
    intro pos cur curSize hcur _ hsum hle b hb
    rw [packLargeParas_nil] at hb
    split at hb
    · simp at hb
    · next hne =>
      rcases List.mem_singleton.mp hb with rfl
      have hf := flush pos cur hcur hne (hsum ▸ hle)
      exact ⟨rfl, rfl, rfl, rfl, hf.1, fun _ => hf.2⟩
  | cons p ps ih =>
    intro pos cur curSize hcur hps hsum hle b hb
    have hp := hps p (List.mem_cons_self p ps)
    have hrest : ∀ x ∈ ps, nws x ≠ [] :=
      fun x hx => hps x (List.mem_cons_of_mem p hx)
    rw [packLargeParas_cons] at hb
    by_cases h1 : maxB < count_chars p
    · rw [if_pos h1] at hb
      by_cases h2 : cur = []
      · rw [if_pos h2] at hb
        rcases List.mem_append.mp hb with h | h
        · have hs := split_by_sentences_spec _ maxB b h
          exact ⟨hs.1, hs.2.1, hs.2.2.1, hs.2.2.2.1, hs.2.2.2.2.1,
            fun ht => le_trans (hs.2.2.2.2.2 ht) (Nat.le_max_left maxB _)⟩
        · exact ih _ [] 0 (by simp) hrest rfl (Nat.zero_le _) b h
      · rw [if_neg h2] at hb
        rcases List.mem_cons.mp hb with rfl | h
        · have hf := flush pos cur hcur h2 (hsum ▸ hle)
          exact ⟨rfl, rfl, rfl, rfl, hf.1, fun _ => hf.2⟩
        · rcases List.mem_append.mp h with h | h
          · have hs := split_by_sentences_spec _ maxB b h
            exact ⟨hs.1, hs.2.1, hs.2.2.1, hs.2.2.2.1, hs.2.2.2.2.1,
              fun ht => le_trans (hs.2.2.2.2.2 ht) (Nat.le_max_left maxB _)⟩
          · exact ih _ [] 0 (by simp) hrest rfl (Nat.zero_le _) b h
    · rw [if_neg h1] at hb
      have hple : count_chars p ≤ maxB := Nat.le_of_not_lt h1
      by_cases h2 : curSize + count_chars p ≤ maxB
      · rw [if_pos h2] at hb
        refine ih _ (cur ++ [p]) (curSize + count_chars p) ?_ hrest ?_ h2 b hb
        · intro t ht
          rcases List.mem_append.mp ht with h | h
          · exact hcur t h
          · rcases List.mem_singleton.mp h with rfl
            exact hp
        · rw [List.map_append, List.sum_append, hsum]
          simp
      · rw [if_neg h2] at hb
        by_cases h3 : cur = []
        · rw [if_pos h3] at hb
          exact ih _ [p] (count_chars p)
            (fun t ht => by rcases List.mem_singleton.mp ht with rfl; exact hp)
            hrest (by simp) hple b hb
        · rw [if_neg h3] at hb
          rcases List.mem_cons.mp hb with rfl | h
          · have hf := flush pos cur hcur h3 (hsum ▸ hle)
            exact ⟨rfl, rfl, rfl, rfl, hf.1, fun _ => hf.2⟩
          · exact ih _ [p] (count_chars p)
              (fun t ht => by rcases List.mem_singleton.mp ht with rfl; exact hp)
              hrest (by simp) hple b h

theorem packSentences_type_level (bt : BlockType) (lvl maxB : Nat) :
    ∀ (sents : List Str) (pos : Nat) (cur : List Str) (curSize : Nat),
      ∀ b ∈ packSentences bt lvl maxB pos cur curSize sents,
        b.block_type = bt ∧ b.level = lvl ∧ b.merged = false ∧
        b.forced = false := by
  intro sents
  induction sents with
  | nil =>
    intro pos cur curSize b hb
    rw [packSentences_nil] at hb
    split at hb
    · simp at hb
    · rcases List.mem_singleton.mp hb with rfl
      exact ⟨rfl, rfl, rfl, rfl⟩
  | cons s rest ih =>
    intro pos cur curSize b hb
    rw [packSentences_cons] at hb
    by_cases h1 : maxB < count_chars s
    · rw [if_pos h1] at hb
      by_cases h2 : cur = []
      · rw [if_pos h2] at hb
        rcases List.mem_append.mp hb with h | h
        · have hf := forceSplitGo_fields bt lvl maxB s.length pos s b h
          exact ⟨hf.1, hf.2.1, hf.2.2.2.1, hf.2.2.2.2⟩
        · exact ih _ [] 0 b h
      · rw [if_neg h2] at hb
        rcases List.mem_cons.mp hb with rfl | h
        · exact ⟨rfl, rfl, rfl, rfl⟩
        · rcases List.mem_append.mp h with h | h
          · have hf := forceSplitGo_fields bt lvl maxB s.length (pos + 1) s b h
            exact ⟨hf.1, hf.2.1, hf.2.2.2.1, hf.2.2.2.2⟩
          · exact ih _ [] 0 b h
    · rw [if_neg h1] at hb
      by_cases h2 : curSize + count_chars s ≤ maxB
      · rw [if_pos h2] at hb
        exact ih _ _ _ b hb
      · rw [if_neg h2] at hb
        by_cases h3 : cur = []
        · rw [if_pos h3] at hb
          exact ih _ _ _ b hb
        · rw [if_neg h3] at hb
          rcases List.mem_cons.mp hb with rfl | h
          · exact ⟨rfl, rfl, rfl, rfl⟩
          · exact ih _ _ _ b h

theorem split_by_sentences_type_level (b : ContentBlock) (maxB : Nat) :
    ∀ b2 ∈ split_by_sentences b maxB,
      b2.block_type = b.block_type ∧ b2.level = b.level ∧
      b2.merged = false ∧ b2.forced = false :=
  packSentences_type_level b.block_type b.level maxB (sentSplit b.content) 0 [] 0

theorem packLargeParas_type_level (bt : BlockType) (lvl maxB : Nat) :
    ∀ (ps : List Str) (pos : Nat) (cur : List Str) (curSize : Nat),
      ∀ b ∈ packLargeParas bt lvl maxB pos cur curSize ps,
        b.block_type = bt ∧ b.level = lvl ∧ b.merged = false ∧
        b.forced = false := by
  intro ps
  induction ps with
  | nil =>
    intro pos cur curSize b hb
    rw [packLargeParas_nil] at hb
    split at hb
    · simp at hb
    · rcases List.mem_singleton.mp hb with rfl
      exact ⟨rfl, rfl, rfl, rfl⟩
  | cons p ps ih =>
    intro pos cur curSize b hb
    rw [packLargeParas_cons] at hb
    by_cases h1 : maxB < count_chars p
    · rw [if_pos h1] at hb
      by_cases h2 : cur = []
      · rw [if_pos h2] at hb
        rcases List.mem_append.mp hb with h | h
        · exact split_by_sentences_type_level _ maxB b h
        · exact ih _ [] 0 b h
      · rw [if_neg h2] at hb
        rcases List.mem_cons.mp hb with rfl | h
        · exact ⟨rfl, rfl, rfl, rfl⟩
        · rcases List.mem_append.mp h with h | h
          · exact split_by_sentences_type_level _ maxB b h
          · exact ih _ [] 0 b h
    · rw [if_neg h1] at hb
      by_cases h2 : curSize + count_chars p ≤ maxB
      · rw [if_pos h2] at hb
        exact ih _ _ _ b hb
      · rw [if_neg h2] at hb
        by_cases h3 : cur = []
        · rw [if_pos h3] at hb
          exact ih _ _ _ b hb
        · rw [if_neg h3] at hb
          rcases List.mem_cons.mp hb with rfl | h
          · exact ⟨rfl, rfl, rfl, rfl⟩
          · exact ih _ _ _ b h

theorem split_large_block_shape (b : ContentBlock) (maxB : Nat) :
    ∀ b2 ∈ split_large_block b maxB,
      b2 = b ∨ (b2.block_type = b.block_type ∧ b2.level = b.level ∧
        b2.merged = false ∧ b2.forced = false) := by
  intro b2 hb2
  unfold split_large_block at hb2
  split at hb2
  · exact Or.inl (List.mem_singleton.mp hb2)
  · split at hb2
    · exact Or.inr (packLargeParas_type_level b.block_type b.level maxB _ _ _ _ b2 hb2)
    · exact Or.inr (split_by_sentences_type_level b maxB b2 hb2)

theorem split_large_block_nws (b : ContentBlock) (maxB : Nat) :
    nwsBlocks (split_large_block b maxB) = nws b.content := by
  unfold split_large_block
  split
  · simp [nwsBlocks]
  · split
    · rw [packLargeParas_nwsCat]
      show nwsCat [] ++
        nwsCat ((splitOnBlank b.content).filter fun p => pstrip p ≠ []) =
          nws b.content
      have h1 : nwsCat ((splitOnBlank b.content).filter fun p => pstrip p ≠ []) =
          (((splitOnBlank b.content).filter fun p => pstrip p ≠ []).map nws).flatten := rfl
      rw [h1, nws_flatten_filter_paras, nws_splitOnBlank]
      simp [nwsCat]
    · exact split_by_sentences_nws b maxB

theorem split_large_block_good (b : ContentBlock) (maxB : Nat)
    (hne : b.content ≠ []) :
    ∀ b2 ∈ split_large_block b maxB,
      b2.content ≠ [] ∧
      (b2.tier3 = false →
        count_chars b2.content ≤ Nat.max maxB (3 * maxB - 2)) := by
  intro b2 hb2
  unfold split_large_block at hb2
  split at hb2
  · next hle =>
    rcases List.mem_singleton.mp hb2 with rfl
    exact ⟨hne, fun _ => le_trans hle (Nat.le_max_left maxB _)⟩
  · split at hb2
    · have hs := packLargeParas_spec b.block_type b.level maxB _ _ _ _
        (by simp)
        (fun p hp => nws_ne_of_pstrip p (by
          have := List.mem_filter.mp hp
          simpa using this.2))
        rfl (Nat.zero_le _) b2 hb2
      exact ⟨nws_ne_nil_ne _ hs.2.2.2.2.1, hs.2.2.2.2.2⟩
    · have hs := split_by_sentences_spec b maxB b2 hb2
      exact ⟨nws_ne_nil_ne _ hs.2.2.2.2.1, fun ht =>
        le_trans (hs.2.2.2.2.2 ht) (Nat.le_max_left maxB _)⟩

theorem split_oversize_nil (cfg : Cfg) : split_oversize cfg [] = [] := rfl

theorem split_oversize_cons (cfg : Cfg) (b : ContentBlock)
    (blocks : List ContentBlock) :
    split_oversize cfg (b :: blocks) =
      (if cfg.max_block_size < count_chars b.content then
        split_large_block b cfg.max_block_size
      else [b]) ++ split_oversize cfg blocks := by
  simp [split_oversize]

theorem split_oversize_nws (cfg : Cfg) (blocks : List ContentBlock) :
    nwsBlocks (split_oversize cfg blocks) = nwsBlocks blocks := by
  induction blocks with
  | nil => rfl
  | cons b blocks ih =>
    rw [split_oversize_cons, nwsBlocks_append, ih, nwsBlocks_cons]
    split
    · rw [split_large_block_nws]
    · rw [nwsBlocks_cons]
      simp [nwsBlocks]

theorem split_oversize_good (cfg : Cfg) (blocks : List ContentBlock)
    (h : ∀ b ∈ blocks, b.merged = false ∧ b.forced = false ∧
      b.content ≠ []) :
    ∀ b2 ∈ split_oversize cfg blocks,
      b2.merged = false ∧ b2.forced = false ∧ b2.content ≠ [] ∧
      (b2.tier3 = false → count_chars b2.content ≤
        Nat.max cfg.max_block_size (3 * cfg.max_block_size - 2)) := by
  induction blocks with
  | nil => intro b2 hb2; simp [split_oversize_nil] at hb2
  | cons b blocks ih =>
    intro b2 hb2
    have hb := h b (List.mem_cons_self b blocks)
    rw [split_oversize_cons] at hb2
    rcases List.mem_append.mp hb2 with h2 | h2
    · split at h2
      · next hover =>
        have hg := split_large_block_good b cfg.max_block_size hb.2.2 b2 h2
        have hs := split_large_block_shape b cfg.max_block_size b2 h2
        refine ⟨?_, ?_, hg.1, hg.2⟩
        · rcases hs with rfl | hs
          · exact hb.1
          · exact hs.2.2.1
        · rcases hs with rfl | hs
          · exact hb.2.1
          · exact hs.2.2.2
      · next hsmall =>
        rcases List.mem_singleton.mp h2 with rfl
        exact ⟨hb.1, hb.2.1, hb.2.2, fun _ =>
          le_trans (Nat.le_of_not_lt hsmall) (Nat.le_max_left _ _)⟩
    · exact ih (fun x hx => h x (List.mem_cons_of_mem b hx)) b2 h2

theorem packLoop_nil (maxB pos : Nat) (cur : List Str) (curSize : Nat) :
    packLoop maxB pos cur curSize [] = [packedBlock pos cur] := rfl

theorem packLoop_cons (maxB pos : Nat) (cur : List Str) (curSize : Nat)
    (p : Str) (ps : List Str) :
    packLoop maxB pos cur curSize (p :: ps) =
      if curSize + count_chars p ≤ maxB then
        packLoop maxB pos (cur ++ [p]) (curSize + count_chars p) ps
      else
        packedBlock pos cur :: packLoop maxB (pos + 1) [p] (count_chars p) ps :=
  rfl

theorem nws_packedBlock (pos : Nat) (cur : List Str) :
    nws (packedBlock pos cur).content = nwsCat cur :=
  nws_largeBlock .content 0 pos cur

theorem packLoop_nwsCat (maxB : Nat) :
    ∀ (ps : List Str) (pos : Nat) (cur : List Str) (curSize : Nat),
      nwsBlocks (packLoop maxB pos cur curSize ps) =
        nwsCat cur ++ nwsCat ps := by
  intro ps
  induction ps with
  | nil =>
    intro pos cur curSize
    rw [packLoop_nil]
    have : nwsBlocks [packedBlock pos cur] = nws (packedBlock pos cur).content := by
      simp [nwsBlocks]
    rw [this, nws_packedBlock]
    simp [nwsCat]
  | cons p ps ih =>
    intro pos cur curSize
    rw [packLoop_cons]
    split
    · rw [ih, nwsCat_append]
      simp [nwsCat]
    · rw [nwsBlocks_cons, nws_packedBlock, ih]
      simp [nwsCat]

theorem packParas_nwsCat (maxB pos : Nat) (paras : List Str) :
    nwsBlocks (packParas maxB pos paras) = nwsCat paras := by
  match paras with
  | [] => rfl
  | p :: ps =>
    show nwsBlocks (packLoop maxB pos [p] (count_chars p) ps) = _
    rw [packLoop_nwsCat]
    simp [nwsCat]

theorem packLoop_fields (maxB : Nat) :
    ∀ (ps : List Str) (pos : Nat) (cur : List Str) (curSize : Nat),
      (∀ p ∈ cur, nws p ≠ []) → cur ≠ [] →
      (∀ p ∈ ps, nws p ≠ []) →
      ∀ b ∈ packLoop maxB pos cur curSize ps,
        b.block_type = .content ∧ b.level = 0 ∧ b.tier3 = false ∧
        b.merged = false ∧ b.forced = false ∧ nws b.content ≠ [] := by
  have flushNws : ∀ (pos : Nat) (cur : List Str),
      (∀ p ∈ cur, nws p ≠ []) → cur ≠ [] →
      nws (packedBlock pos cur).content ≠ [] := by
    intro pos cur hcur hne
    rw [nws_packedBlock]
    match cur, hne with
    | t :: ts, _ =>
      rw [nwsCat_cons]
      have ht := hcur t (List.mem_cons_self t ts)
      intro hcontra
      exact ht (List.append_eq_nil.mp hcontra).1
  intro ps
  induction ps with
  | nil =>
    intro pos cur curSize hcur hne _ b hb
    rw [packLoop_nil] at hb
    rcases List.mem_singleton.mp hb with rfl
    exact ⟨rfl, rfl, rfl, rfl, rfl, flushNws pos cur hcur hne⟩
  | cons p ps ih =>
    intro pos cur curSize hcur hne hps b hb
    have hp := hps p (List.mem_cons_self p ps)
    have hrest : ∀ x ∈ ps, nws x ≠ [] :=
      fun x hx => hps x (List.mem_cons_of_mem p hx)
    rw [packLoop_cons] at hb
    split at hb
    · refine ih _ (cur ++ [p]) _ ?_ (by simp) hrest b hb
      intro t ht
      rcases List.mem_append.mp ht with h | h
      · exact hcur t h
      · rcases List.mem_singleton.mp h with rfl
        exact hp
    · rcases List.mem_cons.mp hb with rfl | h
      · exact ⟨rfl, rfl, rfl, rfl, rfl, flushNws pos cur hcur hne⟩
      · exact ih _ [p] _
          (fun t ht => by rcases List.mem_singleton.mp ht with rfl; exact hp)
          (by simp) hrest b h

theorem packParas_fields (maxB pos : Nat) (paras : List Str)
    (hps : ∀ p ∈ paras, nws p ≠ []) :
    ∀ b ∈ packParas maxB pos paras,
      b.block_type = .content ∧ b.level = 0 ∧ b.tier3 = false ∧
      b.merged = false ∧ b.forced = false ∧ nws b.content ≠ [] := by
  cases paras with
  | nil => intro b hb; simp [packParas] at hb
  | cons p ps =>
    intro b hb
    exact packLoop_fields maxB ps pos [p] (count_chars p)
      (fun t ht => by
        rcases List.mem_singleton.mp ht with rfl
        exact hps _ (List.mem_cons_self _ _))
      (by simp)
      (fun x hx => hps x (List.mem_cons_of_mem p hx)) b hb

theorem scanMerge_nil (cfg : Cfg) (cur : ContentBlock) (sz em : Nat) :
    scanMerge cfg cur sz em [] = ([cur], 0) := rfl

theorem scanMerge_cons (cfg : Cfg) (cur : ContentBlock) (sz em : Nat)
    (b : ContentBlock) (rest : List ContentBlock) :
    scanMerge cfg cur sz em (b :: rest) =
      if 5 * (sz + count_chars b.content) ≤ 6 * cfg.max_block_size then
        ((scanMerge cfg (mergeBlocks em cur b false)
          (sz + count_chars b.content) em rest).1,
         (scanMerge cfg (mergeBlocks em cur b false)
          (sz + count_chars b.content) em rest).2 + 1)
      else if sz < cfg.min_block_size then
        ((scanMerge cfg (mergeBlocks em cur b true)
          (sz + count_chars b.content) em rest).1,
         (scanMerge cfg (mergeBlocks em cur b true)
          (sz + count_chars b.content) em rest).2 + 1)
      else
        (cur :: (scanMerge cfg b (count_chars b.content) (em + 1) rest).1,
         (scanMerge cfg b (count_chars b.content) (em + 1) rest).2) := rfl

theorem scanMerge_len (cfg : Cfg) :
    ∀ (bs : List ContentBlock) (cur : ContentBlock) (sz em : Nat),
      (scanMerge cfg cur sz em bs).1.length + (scanMerge cfg cur sz em bs).2 =
        bs.length + 1 := by
  intro bs
  induction bs with
  | nil => intro cur sz em; simp [scanMerge_nil]
  | cons b rest ih =>
    intro cur sz em
    rw [scanMerge_cons]
    split
    · have := ih (mergeBlocks em cur b false) (sz + count_chars b.content) em
      simp only [List.length_cons] at *
      omega
    · split
      · have := ih (mergeBlocks em cur b true) (sz + count_chars b.content) em
        simp only [List.length_cons] at *
        omega
      · have := ih b (count_chars b.content) (em + 1)
        simp only [List.length_cons] at *
        omega

theorem scanMerge_zero_id (cfg : Cfg) :
    ∀ (bs : List ContentBlock) (cur : ContentBlock) (sz em : Nat),
      (scanMerge cfg cur sz em bs).2 = 0 →
      (scanMerge cfg cur sz em bs).1 = cur :: bs := by
  intro bs
  induction bs with
  | nil => intro cur sz em _; rw [scanMerge_nil]
  | cons b rest ih =>
    intro cur sz em h
    rw [scanMerge_cons] at h ⊢
    by_cases h1 : 5 * (sz + count_chars b.content) ≤ 6 * cfg.max_block_size
    · rw [if_pos h1] at h; simp at h
    · rw [if_neg h1] at h ⊢
      by_cases h2 : sz < cfg.min_block_size
      · rw [if_pos h2] at h; simp at h
      · rw [if_neg h2] at h ⊢
        have h3 : (scanMerge cfg b (count_chars b.content) (em + 1) rest).2 = 0 := h
        show cur :: (scanMerge cfg b (count_chars b.content) (em + 1) rest).1 =
          cur :: b :: rest
        rw [ih b (count_chars b.content) (em + 1) h3]

/-- The number of merges a scan performs depends only on the seed tracked
size and the list of recounted block sizes. -/
def passCount (cfg : Cfg) : Nat → List Nat → Nat
  | _, [] => 0
  | sz, n :: ns =>
    if 5 * (sz + n) ≤ 6 * cfg.max_block_size ∨ sz < cfg.min_block_size then
      passCount cfg (sz + n) ns + 1
    else passCount cfg n ns

theorem scanMerge_count (cfg : Cfg) :
    ∀ (bs : List ContentBlock) (cur : ContentBlock) (sz em : Nat),
      (scanMerge cfg cur sz em bs).2 =
        passCount cfg sz (bs.map fun b => count_chars b.content) := by
  intro bs
  induction bs with
  | nil => intro cur sz em; rw [scanMerge_nil]; rfl
  | cons b rest ih =>
    intro cur sz em
    rw [scanMerge_cons]
    simp only [List.map_cons]
    rw [passCount]
    by_cases h1 : 5 * (sz + count_chars b.content) ≤ 6 * cfg.max_block_size
    · rw [if_pos h1, if_pos (Or.inl h1), ih]
    · rw [if_neg h1]
      by_cases h2 : sz < cfg.min_block_size
      · rw [if_pos h2, if_pos (Or.inr h2), ih]
      · rw [if_neg h2, if_neg (by rintro (h | h); exact h1 h; exact h2 h), ih]

theorem mergeOnePass_count (cfg : Cfg) (bs : List ContentBlock) :
    (mergeOnePass cfg bs).2 =
      match bs.map (fun b => count_chars b.content) with
      | [] => 0
      | n :: ns => passCount cfg n ns := by
  match bs with
  | [] => rfl
  | a :: rest =>
    show (scanMerge cfg a (count_chars a.content) 0 rest).2 = _
    rw [scanMerge_count]
    rfl

theorem mergeOnePass_len (cfg : Cfg) (bs : List ContentBlock) :
    (mergeOnePass cfg bs).1.length + (mergeOnePass cfg bs).2 = bs.length := by
  match bs with
  | [] => rfl
  | a :: rest =>
    show (scanMerge cfg a (count_chars a.content) 0 rest).1.length +
      (scanMerge cfg a (count_chars a.content) 0 rest).2 = (a :: rest).length
    rw [scanMerge_len]
    rfl

theorem mergeOnePass_zero_id (cfg : Cfg) (bs : List ContentBlock)
    (h : (mergeOnePass cfg bs).2 = 0) : (mergeOnePass cfg bs).1 = bs := by
  match bs with
  | [] => rfl
  | a :: rest =>
    show (scanMerge cfg a (count_chars a.content) 0 rest).1 = a :: rest
    exact scanMerge_zero_id cfg rest a (count_chars a.content) 0 h

theorem reindexFrom_length (i : Nat) (bs : List ContentBlock) :
    (reindexFrom i bs).length = bs.length := by
  induction bs generalizing i with
  | nil => rfl
  | cons b rest ih => simp [reindexFrom, ih]

theorem reindexFrom_sizes (i : Nat) (bs : List ContentBlock) :
    (reindexFrom i bs).map (fun b => count_chars b.content) =
      bs.map fun b => count_chars b.content := by
  induction bs generalizing i with
  | nil => rfl
  | cons b rest ih => simp [reindexFrom, ih]

theorem reindexFrom_contents (i : Nat) (bs : List ContentBlock) :
    (reindexFrom i bs).map (fun b => b.content) = bs.map fun b => b.content := by
  induction bs generalizing i with
  | nil => rfl
  | cons b rest ih => simp [reindexFrom, ih]

theorem reindexFrom_nws (i : Nat) (bs : List ContentBlock) :
    nwsBlocks (reindexFrom i bs) = nwsBlocks bs := by
  induction bs generalizing i with
  | nil => rfl
  | cons b rest ih =>
    rw [reindexFrom, nwsBlocks_cons, nwsBlocks_cons, ih]

theorem mem_reindexFrom (b : ContentBlock) :
    ∀ (bs : List ContentBlock) (i : Nat), b ∈ reindexFrom i bs →
      ∃ b0 ∈ bs, ∃ j, b = { b0 with position := j } := by
  intro bs
  induction bs with
  | nil => intro i h; simp [reindexFrom] at h
  | cons x rest ih =>
    intro i h
    rw [reindexFrom] at h
    rcases List.mem_cons.mp h with rfl | h
    · exact ⟨x, List.mem_cons_self x rest, i, rfl⟩
    · obtain ⟨b0, hb0, j, hj⟩ := ih (i + 1) h
      exact ⟨b0, List.mem_cons_of_mem x hb0, j, hj⟩

theorem mergeOnePass_reindex_count (cfg : Cfg) (i : Nat)
    (bs : List ContentBlock) :
    (mergeOnePass cfg (reindexFrom i bs)).2 = (mergeOnePass cfg bs).2 := by
  rw [mergeOnePass_count, mergeOnePass_count, reindexFrom_sizes]

theorem scanMerge_preserve (cfg : Cfg) (P : ContentBlock → Prop)
    (hP : ∀ (em : Nat) (a b : ContentBlock) (f : Bool),
      P a → P b → P (mergeBlocks em a b f)) :
    ∀ (bs : List ContentBlock) (cur : ContentBlock) (sz em : Nat),
      P cur → (∀ b ∈ bs, P b) →
      ∀ b ∈ (scanMerge cfg cur sz em bs).1, P b := by
  intro bs
  induction bs with
  | nil =>
    intro cur sz em hcur _ b hb
    rw [scanMerge_nil] at hb
    rcases List.mem_singleton.mp hb with rfl
    exact hcur
  | cons x rest ih =>
    intro cur sz em hcur hbs b hb
    have hx := hbs x (List.mem_cons_self x rest)
    have hrest : ∀ y ∈ rest, P y := fun y hy => hbs y (List.mem_cons_of_mem x hy)
    rw [scanMerge_cons] at hb
    split at hb
    · exact ih _ _ _ (hP em cur x false hcur hx) hrest b hb
    · split at hb
      · exact ih _ _ _ (hP em cur x true hcur hx) hrest b hb
      · rcases List.mem_cons.mp hb with rfl | hb
        · exact hcur
        · exact ih _ _ _ hx hrest b hb

theorem mergeOnePass_preserve (cfg : Cfg) (P : ContentBlock → Prop)
    (hP : ∀ (em : Nat) (a b : ContentBlock) (f : Bool),
      P a → P b → P (mergeBlocks em a b f))
    (bs : List ContentBlock) (h : ∀ b ∈ bs, P b) :
    ∀ b ∈ (mergeOnePass cfg bs).1, P b := by
  match bs with
  | [] => intro b hb; simp [mergeOnePass] at hb
  | a :: rest =>
    exact scanMerge_preserve cfg P hP rest a (count_chars a.content) 0
      (h a (List.mem_cons_self a rest))
      fun y hy => h y (List.mem_cons_of_mem a hy)

theorem reindexFrom_preserve (P : ContentBlock → Prop)
    (hP : ∀ (b : ContentBlock) (j : Nat), P b → P { b with position := j })
    (bs : List ContentBlock) (i : Nat) (h : ∀ b ∈ bs, P b) :
    ∀ b ∈ reindexFrom i bs, P b := by
  intro b hb
  obtain ⟨b0, hb0, j, rfl⟩ := mem_reindexFrom b bs i hb
  exact hP b0 j (h b0 hb0)

theorem mergeLoopGo_preserve (cfg : Cfg) (P : ContentBlock → Prop)
    (hP : ∀ (em : Nat) (a b : ContentBlock) (f : Bool),
      P a → P b → P (mergeBlocks em a b f))
    (hPos : ∀ (b : ContentBlock) (j : Nat), P b → P { b with position := j }) :
    ∀ (fuel : Nat) (bs : List ContentBlock), (∀ b ∈ bs, P b) →
      ∀ b ∈ mergeLoopGo cfg fuel bs, P b := by
  intro fuel
  induction fuel with
  | zero =>
    intro bs h
    exact reindexFrom_preserve P hPos _ 0 (mergeOnePass_preserve cfg P hP bs h)
  | succ fuel ih =>
    intro bs h
    rw [mergeLoopGo]
    split
    · exact reindexFrom_preserve P hPos _ 0 (mergeOnePass_preserve cfg P hP bs h)
    · exact ih _ (reindexFrom_preserve P hPos _ 0
        (mergeOnePass_preserve cfg P hP bs h))

theorem nws_mergeBlocks (em : Nat) (a b : ContentBlock) (f : Bool) :
    nws (mergeBlocks em a b f).content = nws a.content ++ nws b.content := by
  show nws (a.content ++ '\n' :: '\n' :: b.content) = _
  rw [nws_append]
  have hn : isSpace '\n' = true := by decide
  have h2 : nws ('\n' :: '\n' :: b.content) = nws b.content := by
    simp [nws, List.filter_cons, hn]
  rw [h2]

theorem scanMerge_nws (cfg : Cfg) :
    ∀ (bs : List ContentBlock) (cur : ContentBlock) (sz em : Nat),
      nwsBlocks (scanMerge cfg cur sz em bs).1 =
        nws cur.content ++ nwsBlocks bs := by
  intro bs
  induction bs with
  | nil =>
    intro cur sz em
    rw [scanMerge_nil]
    simp [nwsBlocks, nwsCat]
  | cons x rest ih =>
    intro cur sz em
    rw [scanMerge_cons]
    split
    · show nwsBlocks (scanMerge cfg (mergeBlocks em cur x false) _ em rest).1 = _
      rw [ih, nws_mergeBlocks, nwsBlocks_cons]
      simp
    · split
      · show nwsBlocks (scanMerge cfg (mergeBlocks em cur x true) _ em rest).1 = _
        rw [ih, nws_mergeBlocks, nwsBlocks_cons]
        simp
      · show nwsBlocks (cur :: (scanMerge cfg x _ (em + 1) rest).1) = _
        rw [nwsBlocks_cons, ih, nwsBlocks_cons]

theorem mergeOnePass_nws (cfg : Cfg) (bs : List ContentBlock) :
    nwsBlocks (mergeOnePass cfg bs).1 = nwsBlocks bs := by
  match bs with
  | [] => rfl
  | a :: rest =>
    show nwsBlocks (scanMerge cfg a (count_chars a.content) 0 rest).1 = _
    rw [scanMerge_nws, nwsBlocks_cons]

theorem mergeLoopGo_nws (cfg : Cfg) :
    ∀ (fuel : Nat) (bs : List ContentBlock),
      nwsBlocks (mergeLoopGo cfg fuel bs) = nwsBlocks bs := by
  intro fuel
  induction fuel with
  | zero =>
    intro bs
    rw [mergeLoopGo, reindexFrom_nws, mergeOnePass_nws]
  | succ fuel ih =>
    intro bs
    rw [mergeLoopGo]
    split
    · rw [reindexFrom_nws, mergeOnePass_nws]
    · rw [ih, reindexFrom_nws, mergeOnePass_nws]

theorem mergeLoopGo_len (cfg : Cfg) :
    ∀ (fuel : Nat) (bs : List ContentBlock),
      (mergeLoopGo cfg fuel bs).length ≤ bs.length := by
  intro fuel
  induction fuel with
  | zero =>
    intro bs
    rw [mergeLoopGo, reindexFrom_length]
    have := mergeOnePass_len cfg bs
    omega
  | succ fuel ih =>
    intro bs
    rw [mergeLoopGo]
    split
    · rw [reindexFrom_length]
      have := mergeOnePass_len cfg bs
      omega
    · calc (mergeLoopGo cfg fuel (reindexFrom 0 (mergeOnePass cfg bs).1)).length
          ≤ (reindexFrom 0 (mergeOnePass cfg bs).1).length := ih _
        _ ≤ bs.length := by
            rw [reindexFrom_length]
            have := mergeOnePass_len cfg bs
            omega

theorem mergeLoopGo_fix (cfg : Cfg) :
    ∀ (fuel : Nat) (bs : List ContentBlock), bs.length ≤ fuel →
      (mergeOnePass cfg (mergeLoopGo cfg fuel bs)).2 = 0 := by
  intro fuel
  induction fuel with
  | zero =>
    intro bs h
    have hbs : bs = [] := List.length_eq_zero.mp (Nat.le_zero.mp h)
    subst hbs
    rfl
  | succ fuel ih =>
    intro bs h
    rw [mergeLoopGo]
    split
    · next hzero =>
      rw [mergeOnePass_reindex_count, mergeOnePass_zero_id cfg bs hzero, hzero]
    · next hnz =>
      refine ih _ ?_
      rw [reindexFrom_length]
      have := mergeOnePass_len cfg bs
      have hpos : 0 < (mergeOnePass cfg bs).2 := Nat.pos_of_ne_zero hnz
      omega

theorem passCount_zero_head (cfg : Cfg) (sz n : Nat) (ns : List Nat)
    (h : passCount cfg sz (n :: ns) = 0) :
    ¬(5 * (sz + n) ≤ 6 * cfg.max_block_size ∨ sz < cfg.min_block_size) ∧
      passCount cfg n ns = 0 := by
  rw [passCount] at h
  split at h
  · simp at h
  · next hc => exact ⟨hc, h⟩

theorem mergeOnePass_zero_pairs (cfg : Cfg) :
    ∀ (pre : List ContentBlock) (bs : List ContentBlock),
      (mergeOnePass cfg bs).2 = 0 →
      ∀ (a b : ContentBlock) (post : List ContentBlock),
        bs = pre ++ a :: b :: post →
        ¬(5 * (count_chars a.content + count_chars b.content) ≤
            6 * cfg.max_block_size ∨
          count_chars a.content < cfg.min_block_size) := by
  intro pre
  induction pre with
  | nil =>
    intro bs h a b post heq
    subst heq
    rw [mergeOnePass_count] at h
    simp only [List.nil_append, List.map_cons] at h
    exact (passCount_zero_head cfg _ _ _ h).1
  | cons x pre ih =>
    intro bs h a b post heq
    subst heq
    have h2 : (mergeOnePass cfg (pre ++ a :: b :: post)).2 = 0 := by
      obtain ⟨y, rest, hyr⟩ : ∃ y rest, pre ++ a :: b :: post = y :: rest := by
        cases pre with
        | nil => exact ⟨a, b :: post, rfl⟩
        | cons z zs => exact ⟨z, zs ++ a :: b :: post, rfl⟩
      rw [mergeOnePass_count] at h
      simp only [List.cons_append, List.map_cons] at h
      rw [hyr] at h
      simp only [List.map_cons] at h
      rw [hyr, mergeOnePass_count]
      simp only [List.map_cons]
      exact (passCount_zero_head cfg _ _ _ h).2
    exact ih (pre ++ a :: b :: post) h2 a b post rfl

theorem scanMerge_head (cfg : Cfg) :
    ∀ (bs : List ContentBlock) (cur : ContentBlock) (sz em : Nat),
      (∀ b ∈ bs, b.block_type = .content) →
      ∃ c tail, (scanMerge cfg cur sz em bs).1 = c :: tail ∧
        c.block_type = cur.block_type ∧
        (∃ ext, c.content = cur.content ++ ext) ∧
        ∀ b ∈ tail, b.block_type = .content := by
  intro bs
  induction bs with
  | nil =>
    intro cur sz em _
    exact ⟨cur, [], by rw [scanMerge_nil], rfl, ⟨[], by simp⟩, by simp⟩
  | cons x rest ih =>
    intro cur sz em hbs
    have hx := hbs x (List.mem_cons_self x rest)
    have hrest : ∀ y ∈ rest, y.block_type = .content :=
      fun y hy => hbs y (List.mem_cons_of_mem x hy)
    rw [scanMerge_cons]
    split
    · obtain ⟨c, tail, heq, htype, ⟨ext, hext⟩, htail⟩ :=
        ih (mergeBlocks em cur x false) (sz + count_chars x.content) em hrest
      refine ⟨c, tail, heq, htype, ⟨'\n' :: '\n' :: x.content ++ ext, ?_⟩, htail⟩
      rw [hext]
      show (cur.content ++ '\n' :: '\n' :: x.content) ++ ext = _
      simp [List.append_assoc]
    · split
      · obtain ⟨c, tail, heq, htype, ⟨ext, hext⟩, htail⟩ :=
          ih (mergeBlocks em cur x true) (sz + count_chars x.content) em hrest
        refine ⟨c, tail, heq, htype, ⟨'\n' :: '\n' :: x.content ++ ext, ?_⟩, htail⟩
        rw [hext]
        show (cur.content ++ '\n' :: '\n' :: x.content) ++ ext = _
        simp [List.append_assoc]
      · refine ⟨cur, (scanMerge cfg x (count_chars x.content) (em + 1) rest).1,
          rfl, rfl, ⟨[], by simp⟩, ?_⟩
        exact scanMerge_preserve cfg (fun b => b.block_type = .content)
          (fun em a b f ha _ => ha) rest x (count_chars x.content) (em + 1)
          hx hrest

theorem mergeLoopGo_front (cfg : Cfg) (front : Str) :
    ∀ (fuel : Nat) (c0 : ContentBlock) (tail0 : List ContentBlock),
      c0.block_type = .frontmatter →
      (∃ ext, c0.content = front ++ ext) →
      (∀ b ∈ tail0, b.block_type = .content) →
      ∃ c tail, mergeLoopGo cfg fuel (c0 :: tail0) = c :: tail ∧
        c.block_type = .frontmatter ∧ c.position = 0 ∧
        (∃ ext, c.content = front ++ ext) ∧
        ∀ b ∈ tail, b.block_type = .content := by
  have step : ∀ (c0 : ContentBlock) (tail0 : List ContentBlock),
      c0.block_type = .frontmatter →
      (∃ ext, c0.content = front ++ ext) →
      (∀ b ∈ tail0, b.block_type = .content) →
      ∃ c tail,
        reindexFrom 0 (mergeOnePass cfg (c0 :: tail0)).1 = c :: tail ∧
        c.block_type = .frontmatter ∧ c.position = 0 ∧
        (∃ ext, c.content = front ++ ext) ∧
        ∀ b ∈ tail, b.block_type = .content := by
    intro c0 tail0 htype ⟨ext0, hext0⟩ htail
    obtain ⟨c, tail, heq, hct, ⟨ext, hext⟩, htl⟩ :=
      scanMerge_head cfg tail0 c0 (count_chars c0.content) 0 htail
    have : (mergeOnePass cfg (c0 :: tail0)).1 = c :: tail := heq
    rw [this, reindexFrom]
    refine ⟨{ c with position := 0 }, reindexFrom 1 tail, rfl, ?_, rfl, ?_, ?_⟩
    · show c.block_type = .frontmatter
      rw [hct, htype]
    · exact ⟨ext0 ++ ext, by show c.content = _; rw [hext, hext0]; simp⟩
    · intro b hb
      obtain ⟨b0, hb0, j, rfl⟩ := mem_reindexFrom b tail 1 hb
      exact htl b0 hb0
  intro fuel
  induction fuel with
  | zero =>
    intro c0 tail0 htype hpre htail
    rw [mergeLoopGo]
    exact step c0 tail0 htype hpre htail
  | succ fuel ih =>
    intro c0 tail0 htype hpre htail
    rw [mergeLoopGo]
    split
    · exact step c0 tail0 htype hpre htail
    · obtain ⟨c, tail, heq, hct, hpos, hext, htl⟩ := step c0 tail0 htype hpre htail
      rw [heq]
      exact ih c tail hct hext htl

theorem amendScan_nil (cfg : Cfg) (v : Str × Nat × BlockType) (sz : Nat) :
    amendScan cfg v sz [] = [v] := rfl

theorem amendScan_cons (cfg : Cfg) (cs : Str) (cl : Nat) (ct : BlockType)
    (sz : Nat) (s2 : Str) (l2 : Nat) (t2 : BlockType)
    (rest : List (Str × Nat × BlockType)) :
    amendScan cfg (cs, cl, ct) sz ((s2, l2, t2) :: rest) =
      if 5 * (sz + count_chars s2) ≤ 6 * cfg.max_block_size ∨
          sz < cfg.min_block_size then
        amendScan cfg (cs ++ '\n' :: '\n' :: s2, Nat.min cl l2, ct)
          (sz + count_chars s2) rest
      else (cs, cl, ct) :: amendScan cfg (s2, l2, t2) (count_chars s2) rest :=
  rfl

theorem scanMerge_amend (cfg : Cfg) :
    ∀ (bs : List ContentBlock) (cur : ContentBlock) (sz em : Nat),
      ((scanMerge cfg cur sz em bs).1).map blockView =
        amendScan cfg (blockView cur) sz (bs.map blockView) := by
  intro bs
  induction bs with
  | nil => intro cur sz em; rw [scanMerge_nil]; rfl
  | cons x rest ih =>
    intro cur sz em
    rw [scanMerge_cons]
    show _ = amendScan cfg (cur.content, cur.level, cur.block_type) sz
      ((x.content, x.level, x.block_type) :: rest.map blockView)
    rw [amendScan_cons]
    by_cases h1 : 5 * (sz + count_chars x.content) ≤ 6 * cfg.max_block_size
    · rw [if_pos h1, if_pos (Or.inl h1)]
      exact ih (mergeBlocks em cur x false) (sz + count_chars x.content) em
    · rw [if_neg h1]
      by_cases h2 : sz < cfg.min_block_size
      · rw [if_pos h2, if_pos (Or.inr h2)]
        exact ih (mergeBlocks em cur x true) (sz + count_chars x.content) em
      · rw [if_neg h2, if_neg (by rintro (h | h); exact h1 h; exact h2 h)]
        show blockView cur :: _ = _
        rw [ih x (count_chars x.content) (em + 1)]
        rfl

theorem mergeOnePass_amend (cfg : Cfg) (bs : List ContentBlock) :
    ((mergeOnePass cfg bs).1).map blockView = amendPass cfg (bs.map blockView) := by
  match bs with
  | [] => rfl
  | a :: rest =>
    show ((scanMerge cfg a (count_chars a.content) 0 rest).1).map blockView = _
    rw [scanMerge_amend]
    rfl

theorem specPackGo_nil (maxB : Nat) (cur : List Str) (sz : Nat) :
    specPackGo maxB cur sz [] = if cur = [] then [] else [cur] := rfl

theorem specPackGo_cons (maxB : Nat) (cur : List Str) (sz : Nat) (p : Str)
    (ps : List Str) :
    specPackGo maxB cur sz (p :: ps) =
      if cur = [] then specPackGo maxB [p] (count_chars p) ps
      else if sz + count_chars p ≤ maxB then
        specPackGo maxB (cur ++ [p]) (sz + count_chars p) ps
      else cur :: specPackGo maxB [p] (count_chars p) ps := rfl

theorem packLoop_specPackGo (maxB : Nat) :
    ∀ (ps : List Str) (pos : Nat) (cur : List Str) (sz : Nat), cur ≠ [] →
      (packLoop maxB pos cur sz ps).map (fun b => b.content) =
        (specPackGo maxB cur sz ps).map fun g => pstrip (joinBlank g) := by
  intro ps
  induction ps with
  | nil =>
    intro pos cur sz hne
    rw [packLoop_nil, specPackGo_nil, if_neg hne]
    rfl
  | cons p ps ih =>
    intro pos cur sz hne
    rw [packLoop_cons, specPackGo_cons, if_neg hne]
    split
    · exact ih pos (cur ++ [p]) _ (by simp)
    · rw [List.map_cons, List.map_cons, ih (pos + 1) [p] _ (by simp)]
      rfl

theorem packParas_specPack (maxB pos : Nat) (paras : List Str) :
    (packParas maxB pos paras).map (fun b => b.content) =
      (specPack maxB paras).map fun g => pstrip (joinBlank g) := by
  cases paras with
  | nil => rfl
  | cons p ps =>
    show (packLoop maxB pos [p] (count_chars p) ps).map _ = _
    rw [packLoop_specPackGo maxB ps pos [p] (count_chars p) (by simp)]
    rfl

theorem adjust_nil (cfg : Cfg) : adjust_block_sizes cfg [] = [] := rfl

theorem adjust_ne (cfg : Cfg) (blocks : List ContentBlock) (h : blocks ≠ []) :
    adjust_block_sizes cfg blocks =
      mergeLoopGo cfg (split_oversize cfg blocks).length
        (split_oversize cfg blocks) := by
  unfold adjust_block_sizes
  rw [if_neg h]

theorem adjust_nws (cfg : Cfg) (blocks : List ContentBlock) :
    nwsBlocks (adjust_block_sizes cfg blocks) = nwsBlocks blocks := by
  by_cases h : blocks = []
  · subst h; rfl
  · rw [adjust_ne cfg blocks h, mergeLoopGo_nws, split_oversize_nws]

theorem adjust_good (cfg : Cfg) (blocks : List ContentBlock)
    (h : ∀ b ∈ blocks, b.merged = false ∧ b.forced = false ∧
      b.content ≠ []) :
    ∀ b ∈ adjust_block_sizes cfg blocks,
      b.content ≠ [] ∧
      (b.tier3 = false → b.merged = false →
        count_chars b.content ≤
          Nat.max cfg.max_block_size (3 * cfg.max_block_size - 2)) := by
  by_cases hb : blocks = []
  · subst hb; intro b hb2; simp [adjust_nil] at hb2
  · rw [adjust_ne cfg blocks hb]
    have h0 := split_oversize_good cfg blocks h
    refine mergeLoopGo_preserve cfg
      (fun b => b.content ≠ [] ∧ (b.tier3 = false → b.merged = false →
        count_chars b.content ≤
          Nat.max cfg.max_block_size (3 * cfg.max_block_size - 2)))
      ?_ ?_ _ _ ?_
    · intro em a b f ha hb2
      constructor
      · show a.content ++ '\n' :: '\n' :: b.content ≠ []
        intro hc
        exact absurd (List.append_eq_nil.mp hc).2 (by simp)
      · intro _ hm
        exact absurd hm (by simp [mergeBlocks])
    · intro b j hp
      exact hp
    · intro b hb2
      have := h0 b hb2
      exact ⟨this.2.2.1, fun ht _ => this.2.2.2 ht⟩

theorem packLoop_type_level (maxB : Nat) :
    ∀ (ps : List Str) (pos : Nat) (cur : List Str) (sz : Nat),
      ∀ b ∈ packLoop maxB pos cur sz ps,
        b.block_type = .content ∧ b.level = 0 ∧ b.tier3 = false ∧
        b.merged = false ∧ b.forced = false := by
  intro ps
  induction ps with
  | nil =>
    intro pos cur sz b hb
    rw [packLoop_nil] at hb
    rcases List.mem_singleton.mp hb with rfl
    exact ⟨rfl, rfl, rfl, rfl, rfl⟩
  | cons p ps ih =>
    intro pos cur sz b hb
    rw [packLoop_cons] at hb
    split at hb
    · exact ih _ _ _ b hb
    · rcases List.mem_cons.mp hb with rfl | h
      · exact ⟨rfl, rfl, rfl, rfl, rfl⟩
      · exact ih _ _ _ b h

theorem packParas_type_level (maxB pos : Nat) (paras : List Str) :
    ∀ b ∈ packParas maxB pos paras,
      b.block_type = .content ∧ b.level = 0 ∧ b.tier3 = false ∧
      b.merged = false ∧ b.forced = false := by
  cases paras with
  | nil => intro b hb; simp [packParas] at hb
  | cons p ps => exact packLoop_type_level maxB ps pos [p] (count_chars p)

theorem split_oversize_types (cfg : Cfg) (blocks : List ContentBlock)
    (h : ∀ b ∈ blocks, b.block_type = .content) :
    ∀ b2 ∈ split_oversize cfg blocks, b2.block_type = .content := by
  induction blocks with
  | nil => intro b2 hb2; simp [split_oversize_nil] at hb2
  | cons b blocks ih =>
    intro b2 hb2
    rw [split_oversize_cons] at hb2
    rcases List.mem_append.mp hb2 with h2 | h2
    · split at h2
      · rcases split_large_block_shape b cfg.max_block_size b2 h2 with rfl | hs
        · exact h _ (List.mem_cons_self _ _)
        · rw [hs.1]
          exact h _ (List.mem_cons_self _ _)
      · rcases List.mem_singleton.mp h2 with rfl
        exact h _ (List.mem_cons_self _ _)
    · exact ih (fun x hx => h x (List.mem_cons_of_mem b hx)) b2 h2

theorem split_oversize_levels (cfg : Cfg) (blocks : List ContentBlock)
    (h : ∀ b ∈ blocks, b.level = 0) :
    ∀ b2 ∈ split_oversize cfg blocks, b2.level = 0 := by
  induction blocks with
  | nil => intro b2 hb2; simp [split_oversize_nil] at hb2
  | cons b blocks ih =>
    intro b2 hb2
    rw [split_oversize_cons] at hb2
    rcases List.mem_append.mp hb2 with h2 | h2
    · split at h2
      · rcases split_large_block_shape b cfg.max_block_size b2 h2 with rfl | hs
        · exact h _ (List.mem_cons_self _ _)
        · rw [hs.2.1]
          exact h _ (List.mem_cons_self _ _)
      · rcases List.mem_singleton.mp h2 with rfl
        exact h _ (List.mem_cons_self _ _)
    · exact ih (fun x hx => h x (List.mem_cons_of_mem b hx)) b2 h2

theorem mergeLoopGo_nil (cfg : Cfg) : ∀ fuel, mergeLoopGo cfg fuel [] = [] := by
  intro fuel
  cases fuel with
  | zero => rfl
  | succ fuel => rfl

theorem mergeLoopGo_fuel_stable (cfg : Cfg) :
    ∀ (fuel extra : Nat) (bs : List ContentBlock), bs.length ≤ fuel →
      mergeLoopGo cfg (fuel + extra) bs = mergeLoopGo cfg fuel bs := by
  intro fuel
  induction fuel with
  | zero =>
    intro extra bs h
    have hbs : bs = [] := List.length_eq_zero.mp (Nat.le_zero.mp h)
    subst hbs
    rw [mergeLoopGo_nil, mergeLoopGo_nil]
  | succ fuel ih =>
    intro extra bs h
    have hadd : fuel + 1 + extra = (fuel + extra) + 1 := by omega
    rw [hadd, mergeLoopGo, mergeLoopGo]
    split
    · rfl
    · next hnz =>
      refine ih extra _ ?_
      rw [reindexFrom_length]
      have := mergeOnePass_len cfg bs
      have hpos : 0 < (mergeOnePass cfg bs).2 := Nat.pos_of_ne_zero hnz
      omega

theorem mergeLoopGo_shape (cfg : Cfg) :
    ∀ (fuel : Nat) (bs : List ContentBlock),
      ∃ bs0, mergeLoopGo cfg fuel bs = reindexFrom 0 bs0 := by
  intro fuel
  induction fuel with
  | zero => intro bs; exact ⟨(mergeOnePass cfg bs).1, rfl⟩
  | succ fuel ih =>
    intro bs
    rw [mergeLoopGo]
    split
    · exact ⟨(mergeOnePass cfg bs).1, rfl⟩
    · exact ih _

theorem reindexFrom_positions (bs : List ContentBlock) :
    ∀ i, (reindexFrom i bs).map (fun b => b.position) =
      List.range' i bs.length := by
  induction bs with
  | nil => intro i; rfl
  | cons b rest ih =>
    intro i
    rw [reindexFrom, List.map_cons, ih (i + 1)]
    rfl

theorem initBlocks_nil : initBlocks [] = [] := rfl

theorem initBlocks_ne (front : Str) (h : front ≠ []) :
    initBlocks front = [fmBlock front] := by
  unfold initBlocks
  rw [if_pos h]

theorem split_content_nil_main (cfg : Cfg) (front : Str) :
    split_content cfg front [] = initBlocks front := rfl

theorem split_content_main (cfg : Cfg) (front main : Str) (h : main ≠ []) :
    split_content cfg front main =
      adjust_block_sizes cfg
        (initBlocks front ++
          packParas cfg.max_block_size (initBlocks front).length
            ((splitOnBlank main).filter fun p => pstrip p ≠ [])) := by
  unfold split_content
  rw [if_pos h]

theorem init_packed_cond (cfg : Cfg) (front main : Str) :
    ∀ b ∈ initBlocks front ++
        packParas cfg.max_block_size (initBlocks front).length
          ((splitOnBlank main).filter fun p => pstrip p ≠ []),
      b.merged = false ∧ b.forced = false ∧ b.content ≠ [] := by
  intro b hb
  rcases List.mem_append.mp hb with h | h
  · unfold initBlocks at h
    split at h
    · next hf =>
      rcases List.mem_singleton.mp h with rfl
      exact ⟨rfl, rfl, hf⟩
    · simp at h
  · have hf := packParas_fields cfg.max_block_size (initBlocks front).length _
      (fun p hp => nws_ne_of_pstrip p (by
        have := List.mem_filter.mp hp
        simpa using this.2)) b h
    exact ⟨hf.2.2.2.1, hf.2.2.2.2.1, nws_ne_nil_ne _ hf.2.2.2.2.2⟩

theorem split_content_nonempty (cfg : Cfg) (front main : Str) :
    ∀ b ∈ split_content cfg front main, b.content ≠ [] := by
  by_cases h : main = []
  · subst h
    rw [split_content_nil_main]
    intro b hb
    unfold initBlocks at hb
    split at hb
    · next hf =>
      rcases List.mem_singleton.mp hb with rfl
      exact hf
    · simp at hb
  · rw [split_content_main cfg front main h]
    intro b hb
    exact (adjust_good cfg _ (init_packed_cond cfg front main) b hb).1

theorem split_content_bound (cfg : Cfg) (front main : Str) (h : main ≠ []) :
    ∀ b ∈ split_content cfg front main,
      b.tier3 = false → b.merged = false →
      count_chars b.content ≤
        Nat.max cfg.max_block_size (3 * cfg.max_block_size - 2) := by
  rw [split_content_main cfg front main h]
  intro b hb
  exact (adjust_good cfg _ (init_packed_cond cfg front main) b hb).2

theorem split_content_nws (cfg : Cfg) (main : Str) :
    nwsBlocks (split_content cfg [] main) = nws main := by
  by_cases h : main = []
  · subst h
    rfl
  · rw [split_content_main cfg [] main h, adjust_nws, initBlocks_nil,
      List.nil_append, packParas_nwsCat]
    show (((splitOnBlank main).filter fun p => pstrip p ≠ []).map nws).flatten = _
    rw [nws_flatten_filter_paras, nws_splitOnBlank]

theorem adjust_levels (cfg : Cfg) (blocks : List ContentBlock)
    (h : ∀ b ∈ blocks, b.level = 0) :
    ∀ b ∈ adjust_block_sizes cfg blocks, b.level = 0 := by
  by_cases hb : blocks = []
  · subst hb; intro b hb2; simp [adjust_nil] at hb2
  · rw [adjust_ne cfg blocks hb]
    refine mergeLoopGo_preserve cfg (fun b => b.level = 0) ?_ ?_ _ _
      (split_oversize_levels cfg blocks h)
    · intro em a b f ha hb2
      show Nat.min a.level b.level = 0
      rw [ha, hb2]
      rfl
    · intro b j hp
      exact hp

theorem split_content_levels (cfg : Cfg) (front main : Str) :
    ∀ b ∈ split_content cfg front main, b.level = 0 := by
  have hinit : ∀ b ∈ initBlocks front, b.level = 0 := by
    intro b hb
    unfold initBlocks at hb
    split at hb
    · rcases List.mem_singleton.mp hb with rfl
      rfl
    · simp at hb
  by_cases h : main = []
  · subst h
    rw [split_content_nil_main]
    exact hinit
  · rw [split_content_main cfg front main h]
    refine adjust_levels cfg _ ?_
    intro b hb
    rcases List.mem_append.mp hb with h2 | h2
    · exact hinit b h2
    · exact (packParas_type_level _ _ _ b h2).2.1

theorem split_content_positions (cfg : Cfg) (front main : Str) :
    (split_content cfg front main).map (fun b => b.position) =
      List.range (split_content cfg front main).length := by
  by_cases h : main = []
  · subst h
    rw [split_content_nil_main]
    unfold initBlocks
    split
    · rfl
    · rfl
  · rw [split_content_main cfg front main h]
    set blocks0 := initBlocks front ++
      packParas cfg.max_block_size (initBlocks front).length
        ((splitOnBlank main).filter fun p => pstrip p ≠ []) with hblocks0
    by_cases hb : blocks0 = []
    · rw [hb, adjust_nil]
      rfl
    · rw [adjust_ne cfg blocks0 hb]
      obtain ⟨bs0, hbs0⟩ := mergeLoopGo_shape cfg (split_oversize cfg blocks0).length
        (split_oversize cfg blocks0)
      rw [hbs0, reindexFrom_positions, reindexFrom_length,
        List.range_eq_range']

theorem split_content_frontmatter (cfg : Cfg) (front main : Str)
    (hf : front ≠ []) (hsize : count_chars front ≤ cfg.max_block_size) :
    ∃ c tail, split_content cfg front main = c :: tail ∧
      c.block_type = .frontmatter ∧ c.position = 0 ∧
      (∃ ext, c.content = front ++ ext) ∧
      ∀ b ∈ tail, b.block_type = .content := by
  by_cases h : main = []
  · subst h
    rw [split_content_nil_main, initBlocks_ne front hf]
    exact ⟨fmBlock front, [], rfl, rfl, rfl, ⟨[], by simp [fmBlock]⟩, by simp⟩
  · rw [split_content_main cfg front main h, initBlocks_ne front hf]
    have hne : fmBlock front ::
        packParas cfg.max_block_size [fmBlock front].length
          ((splitOnBlank main).filter fun p => pstrip p ≠ []) ≠ [] := by simp
    rw [show ([fmBlock front] ++
        packParas cfg.max_block_size [fmBlock front].length
          ((splitOnBlank main).filter fun p => pstrip p ≠ [])) =
      fmBlock front ::
        packParas cfg.max_block_size [fmBlock front].length
          ((splitOnBlank main).filter fun p => pstrip p ≠ []) from rfl,
      adjust_ne cfg _ hne, split_oversize_cons,
      if_neg (show ¬ cfg.max_block_size < count_chars (fmBlock front).content from
        Nat.not_lt.mpr hsize)]
    have htypes : ∀ b ∈ split_oversize cfg
        (packParas cfg.max_block_size [fmBlock front].length
          ((splitOnBlank main).filter fun p => pstrip p ≠ [])),
        b.block_type = .content :=
      split_oversize_types cfg _ fun b hb =>
        (packParas_type_level _ _ _ b hb).1
    exact mergeLoopGo_front cfg front _ (fmBlock front) _ rfl
      ⟨[], by simp [fmBlock]⟩ htypes

/-- C1 (counterexample): the claimed size bound fails on the code.  With
`min_block_size = 1`, `max_block_size = 10`, the mainmatter
`"aaaaaa\n\nbbbbbb"` produces a single block that was not born from Tier-3
slicing and is not the result of a forced merge (it comes from a tolerance
merge), yet its weighted size is 14 > 10; and the mainmatter
`"aaaaa\n\nbbbbb"` produces a single block that was never merged at all
(the paragraph packer counts sizes without the two-character `"\n\n"`
joiner), yet its weighted size is 12 > 10. -/
theorem C1_counterexample :
    (0 < 1 ∧ 1 ≤ 10) ∧
    ¬ (∀ b ∈ split_content ⟨1, 10⟩ [] (str "aaaaaa\n\nbbbbbb"),
        b.tier3 = false → b.forced = false → count_chars b.content ≤ 10) ∧
    ¬ (∀ b ∈ split_content ⟨1, 10⟩ [] (str "aaaaa\n\nbbbbb"),
        b.tier3 = false → b.merged = false → count_chars b.content ≤ 10) := by
  decide

/-- C1 (amended): for every configuration with `0 < min_size <= max_size`
and every non-empty mainmatter, every block in the final output that was not
emitted by Tier-3 forced character slicing and was not produced by any merge
of the merge pass (tolerance merges included, since the scan's size
accounting ignores the `"\n\n"` joiners) has weighted size at most
`3 * max_size - 2`; with an empty mainmatter the frontmatter block is
returned without any size adjustment. -/
theorem C1_size_bound (cfg : Cfg) (front main : Str)
    (hmin : 0 < cfg.min_block_size)
    (hminmax : cfg.min_block_size ≤ cfg.max_block_size)
    (hmain : main ≠ []) :
    ∀ b ∈ split_content cfg front main,
      b.tier3 = false → b.merged = false →
      count_chars b.content ≤ 3 * cfg.max_block_size - 2 := by
  have h1 : 1 ≤ cfg.max_block_size := le_trans hmin hminmax
  have heq : Nat.max cfg.max_block_size (3 * cfg.max_block_size - 2) =
      3 * cfg.max_block_size - 2 := Nat.max_eq_right (by omega)
  intro b hb ht hm
  have h2 := split_content_bound cfg front main hmain b hb ht hm
  rw [heq] at h2
  exact h2

theorem C1_size_bound_witness :
    (0 < 1 ∧ 1 ≤ 10 ∧ str "hi" ≠ []) ∧
    count_chars (ContentBlock.mk (str "hi") .content 0 0 false false false).content ≤
      3 * 10 - 2 :=
  ⟨by decide,
   C1_size_bound ⟨1, 10⟩ [] (str "hi") (by decide) (by decide) (by decide)
     (ContentBlock.mk (str "hi") .content 0 0 false false false)
     (by decide) (by decide) (by decide)⟩

/-- C2: for every configuration with `0 < min_size <= max_size` and every
mainmatter string (the frontmatter being empty so that the output consists
exactly of the mainmatter's blocks), the non-whitespace characters of the
concatenation of all output blocks' content, in position order, are exactly
the non-whitespace characters of the original mainmatter; the output
positions are the contiguous indices `0, 1, ...` of the list, so list order
is position order. -/
theorem C2_content_preservation (cfg : Cfg) (main : Str)
    (hmin : 0 < cfg.min_block_size)
    (hminmax : cfg.min_block_size ≤ cfg.max_block_size) :
    nws (((split_content cfg [] main).map fun b => b.content).flatten) =
      nws main ∧
    (split_content cfg [] main).map (fun b => b.position) =
      List.range (split_content cfg [] main).length :=
  ⟨by rw [nws_contents, split_content_nws], split_content_positions cfg [] main⟩

theorem C2_content_preservation_witness :
    (0 < 1 ∧ 1 ≤ 10) ∧
    (nws (((split_content ⟨1, 10⟩ [] (str "a b\n\n中文, c.")).map
        fun b => b.content).flatten) = nws (str "a b\n\n中文, c.") ∧
      (split_content ⟨1, 10⟩ [] (str "a b\n\n中文, c.")).map
          (fun b => b.position) =
        List.range (split_content ⟨1, 10⟩ [] (str "a b\n\n中文, c.")).length) :=
  ⟨by decide,
   C2_content_preservation ⟨1, 10⟩ (str "a b\n\n中文, c.") (by decide) (by decide)⟩

/-- C3: the merge loop of `_adjust_block_sizes` terminates on every input
block list (fuel equal to the list length reaches the loop's exit: adding
any extra fuel does not change the result), its output is no longer than its
input, one further pass over the output performs zero merges, and in the
output no adjacent pair `(A, B)` satisfies either merge condition - neither
`weighted_size(A) + weighted_size(B) <= max_size * 1.2` nor
`weighted_size(A) < min_size`. -/
theorem C3_merge_fixpoint (cfg : Cfg) (bs : List ContentBlock) :
    (mergeOnePass cfg (mergeLoopGo cfg bs.length bs)).2 = 0 ∧
    (∀ extra : Nat,
      mergeLoopGo cfg (bs.length + extra) bs = mergeLoopGo cfg bs.length bs) ∧
    (mergeLoopGo cfg bs.length bs).length ≤ bs.length ∧
    ∀ (pre post : List ContentBlock) (a b : ContentBlock),
      mergeLoopGo cfg bs.length bs = pre ++ a :: b :: post →
      ¬(5 * (count_chars a.content + count_chars b.content) ≤
          6 * cfg.max_block_size ∨
        count_chars a.content < cfg.min_block_size) :=
  ⟨mergeLoopGo_fix cfg bs.length bs (le_refl _),
   fun extra => mergeLoopGo_fuel_stable cfg bs.length extra bs (le_refl _),
   mergeLoopGo_len cfg bs.length bs,
   fun pre post a b heq =>
     mergeOnePass_zero_pairs cfg pre _
       (mergeLoopGo_fix cfg bs.length bs (le_refl _)) a b post heq⟩

theorem C3_merge_fixpoint_witness :
    (mergeOnePass ⟨1, 10⟩
      (mergeLoopGo ⟨1, 10⟩
        [freshBlock (str "aaaaaaaa"), freshBlock (str "bbbbbbbb")].length
        [freshBlock (str "aaaaaaaa"), freshBlock (str "bbbbbbbb")])).2 = 0 ∧
    ¬(5 * (count_chars (freshBlock (str "aaaaaaaa")).content +
          count_chars (ContentBlock.mk (str "bbbbbbbb") .content 0 1
            false false false).content) ≤
        6 * (Cfg.mk 1 10).max_block_size ∨
      count_chars (freshBlock (str "aaaaaaaa")).content <
        (Cfg.mk 1 10).min_block_size) :=
  ⟨(C3_merge_fixpoint ⟨1, 10⟩
      [freshBlock (str "aaaaaaaa"), freshBlock (str "bbbbbbbb")]).1,
   (C3_merge_fixpoint ⟨1, 10⟩
      [freshBlock (str "aaaaaaaa"), freshBlock (str "bbbbbbbb")]).2.2.2
     [] [] (freshBlock (str "aaaaaaaa"))
     (ContentBlock.mk (str "bbbbbbbb") .content 0 1 false false false)
     (by decide)⟩

/-- C4 (counterexample): the merge rule as claimed - with the left size
taken as the weighted size of the current block's full content - disagrees
with the code.  With `min = 1`, `max = 10` and blocks of sizes 1, 10, 1, the
code's scan merges all three blocks (its tracked size excludes the `"\n\n"`
joiners), while the claimed rule stops after the first merge (recounted size
13, and 13 + 1 = 14 > 12). -/
theorem C4_counterexample :
    ((mergeOnePass ⟨1, 10⟩
        [freshBlock (str "x"), freshBlock (str "BBBBBBBBBB"),
          freshBlock (str "y")]).1).map blockView ≠
      claimPass ⟨1, 10⟩
        ([freshBlock (str "x"), freshBlock (str "BBBBBBBBBB"),
          freshBlock (str "y")].map blockView) := by
  decide

/-- C4 (amended): during a merge scan, the current block `A` is merged with
its immediate successor `B` exactly when
`tracked(A) + weighted_size(B) <= max_size * 1.2` or
`tracked(A) < min_size`, where `tracked(A)` is the running sum of the
weighted sizes of `A`'s constituent blocks excluding the `"\n\n"` joiners
(equal to `weighted_size(A)` when `A` is an original, unmerged block); the
merged block's content is `A.content + "\n\n" + B.content` and its level is
`min(A.level, B.level)`; when neither condition holds, `A` is emitted
unchanged and the scan advances to `B`.  Stated as: the code's pass
projects, on content, level and block type, to the scan defined by exactly
that rule. -/
theorem C4_merge_rule (cfg : Cfg) (bs : List ContentBlock) :
    ((mergeOnePass cfg bs).1).map blockView = amendPass cfg (bs.map blockView) :=
  mergeOnePass_amend cfg bs

/-- C5: the paragraph packer splits the mainmatter on `"\n\n"`, drops
whitespace-only paragraphs, and packs greedily in order exactly as the claim
states: an empty accumulator accepts the next paragraph unconditionally,
otherwise the paragraph is appended when the running size stays within
`max_size` and the accumulator is flushed and restarted otherwise, with a
final flush at end of input - the packer's blocks are precisely the greedy
groups, with content their `"\n\n"`-join stripped, type `content` and level
0; splitting on `"\n\n"` loses nothing (joining the split parts restores
the string); empty input yields an empty list. -/
theorem C5_paragraph_packer :
    (∀ (maxB pos : Nat) (paras : List Str),
      (packParas maxB pos paras).map (fun b => b.content) =
        (specPack maxB paras).map fun g => pstrip (joinBlank g)) ∧
    (∀ (maxB pos : Nat) (paras : List Str),
      ∀ b ∈ packParas maxB pos paras,
        b.block_type = .content ∧ b.level = 0) ∧
    (∀ s : Str, joinBlank (splitOnBlank s) = s) ∧
    (∀ cfg : Cfg, split_content cfg [] [] = []) ∧
    (∀ maxB pos : Nat, packParas maxB pos [] = []) :=
  ⟨fun maxB pos paras => packParas_specPack maxB pos paras,
   fun maxB pos paras b hb =>
     ⟨(packParas_type_level maxB pos paras b hb).1,
      (packParas_type_level maxB pos paras b hb).2.1⟩,
   joinBlank_splitOnBlank,
   fun _ => rfl,
   fun _ _ => rfl⟩

theorem C5_paragraph_packer_witness :
    ((packParas 10 0 [str "aaaaaa", str "bbbbbb"]).map (fun b => b.content) =
      (specPack 10 [str "aaaaaa", str "bbbbbb"]).map
        fun g => pstrip (joinBlank g)) ∧
    ((ContentBlock.mk (str "x") .content 0 0 false false false).block_type =
        .content ∧
      (ContentBlock.mk (str "x") .content 0 0 false false false).level = 0) :=
  ⟨C5_paragraph_packer.1 10 0 [str "aaaaaa", str "bbbbbb"],
   C5_paragraph_packer.2.1 10 0 [str "x"]
     (ContentBlock.mk (str "x") .content 0 0 false false false) (by decide)⟩

/-- C6: Tier-3 forced character slicing terminates after at most
length-of-input slices for every non-empty input and `max_size >= 1` (each
slice consumes at least one character), and in the degenerate case of a
single CJK character with `max_size = 1` the character is emitted alone as
one slice of weighted size 2 instead of looping or raising. -/
theorem C6_tier3_termination :
    (∀ (bt : BlockType) (lvl maxB pos : Nat) (s : Str), s ≠ [] → 1 ≤ maxB →
      (force_split_block bt lvl maxB pos s).length ≤ s.length) ∧
    force_split_block .content 0 1 0 (str "中") =
      [ContentBlock.mk (str "中") .content 0 0 true false false] ∧
    count_chars (str "中") = 2 :=
  ⟨fun bt lvl maxB pos s _ _ => forceSplitGo_length_le bt lvl maxB s.length pos s,
   by decide, by decide⟩

theorem C6_tier3_termination_witness :
    (str "ab" ≠ [] ∧ 1 ≤ 1) ∧
    (force_split_block .content 0 1 0 (str "ab")).length ≤ (str "ab").length :=
  ⟨by decide,
   C6_tier3_termination.1 .content 0 1 0 (str "ab") (by decide) (by decide)⟩

/-- C7 (counterexample): a degenerate configuration (`max_size = 0 <= 0` and
`min_size = 5 > 0 = max_size`) is not rejected: `split_content` performs the
full packing, splitting and merging pipeline and returns an ordinary block
(here the input was even force-sliced and then force-merged), where the
claim demands an immediate configuration error before any packing. -/
theorem C7_counterexample :
    split_content ⟨5, 0⟩ [] (str "ab") =
      [ContentBlock.mk (str "a\n\nb") .content 0 0 false true true] := by
  decide

/-- C7 (amended): the entry point performs no configuration validation:
every configuration, including `max_size <= 0` and `min_size > max_size`,
is processed like any other - segmentation always terminates and every
returned block has non-empty content, whatever the shape of the input
text. -/
theorem C7_no_validation (cfg : Cfg) (front main : Str) :
    ∀ b ∈ split_content cfg front main, b.content ≠ [] :=
  split_content_nonempty cfg front main

theorem C7_no_validation_witness :
    (ContentBlock.mk (str "a\n\nb") .content 0 0 false true true).content ≠ [] :=
  C7_no_validation ⟨5, 0⟩ [] (str "ab")
    (ContentBlock.mk (str "a\n\nb") .content 0 0 false true true) (by decide)

/-- C8 (counterexample): the frontmatter block is not inviolate.  With
`min = 1`, `max = 10`, frontmatter `"f"` and mainmatter `"x"`, the merge
pass merges mainmatter content into the frontmatter block, so no block's
content equals the frontmatter string; and with `max = 2` an oversize
frontmatter `"aa\n\nbb"` is split into two frontmatter-typed blocks, so the
output does not contain exactly one frontmatter block. -/
theorem C8_counterexample :
    (¬ ∀ b ∈ split_content ⟨1, 10⟩ (str "f") (str "x"),
        b.block_type = .frontmatter → b.content = str "f") ∧
    (split_content ⟨1, 2⟩ (str "aa\n\nbb") (str "x")).countP
        (fun b => decide (b.block_type = .frontmatter)) = 2 := by
  decide

/-- C8 (amended): for every non-empty frontmatter whose weighted size is at
most `max_size`, the final output's first block has block type
`frontmatter` and position 0, every other block has type `content` (so the
frontmatter-typed block is unique), and its content begins with the given
frontmatter string - but later merges may append mainmatter content after
it, and an oversize frontmatter may be split into several frontmatter-typed
blocks, so the dedicated block's content need not equal the frontmatter
exactly. -/
theorem C8_frontmatter_first (cfg : Cfg) (front main : Str)
    (hf : front ≠ []) (hsize : count_chars front ≤ cfg.max_block_size) :
    ∃ c tail, split_content cfg front main = c :: tail ∧
      c.block_type = .frontmatter ∧ c.position = 0 ∧
      (∃ ext, c.content = front ++ ext) ∧
      ∀ b ∈ tail, b.block_type = .content :=
  split_content_frontmatter cfg front main hf hsize

theorem C8_frontmatter_first_witness :
    (str "f" ≠ [] ∧ count_chars (str "f") ≤ 10) ∧
    (∃ c tail, split_content ⟨1, 10⟩ (str "f") (str "x") = c :: tail ∧
      c.block_type = .frontmatter ∧ c.position = 0 ∧
      (∃ ext, c.content = str "f" ++ ext) ∧
      ∀ b ∈ tail, b.block_type = .content) :=
  ⟨by decide,
   C8_frontmatter_first ⟨1, 10⟩ (str "f") (str "x") (by decide) (by decide)⟩

/-- C9: evaluation of the code at the failing input.  The claim (and the
repository's own tests) require a content block that begins with a Markdown
header line to carry that header's depth as its level, but the code never
inspects headers: on mainmatter `"# A"` the single output block starts with
a depth-1 header yet has level 0, and in fact every block produced by
`split_content`, for every configuration and input, has level 0. -/
theorem C9_header_levels :
    split_content ⟨1, 100⟩ [] (str "# A") =
      [ContentBlock.mk (str "# A") .content 0 0 false false false] ∧
    headerDepth (str "# A") = some 1 ∧
    (0 : Nat) ≠ 1 ∧
    (∀ (cfg : Cfg) (front main : Str),
      ∀ b ∈ split_content cfg front main, b.level = 0) :=
  ⟨by decide, by decide, by decide,
   fun cfg front main => split_content_levels cfg front main⟩

theorem C9_header_levels_witness :
    (ContentBlock.mk (str "# A") .content 0 0 false false false).level = 0 :=
  C9_header_levels.2.2.2 ⟨1, 100⟩ [] (str "# A")
    (ContentBlock.mk (str "# A") .content 0 0 false false false) (by decide)
